import Mathlib

/-!
A verification development for the WebM duration fixer of this repository
(`src/content-script.js`: classes `WebMSeeker` and `Decoder`, and
`AdvancedVideoCapture.sanitizeFilename`; the same code appears in
`src/unnamed/part_000`).

Byte buffers (JS `ArrayBuffer`) are modelled as `List ℕ` of byte values.
JavaScript numbers (IEEE-754 binary64) are modelled exactly: every finite
double is a dyadic rational, kept in sign-magnitude form (`JSNum`), and
rounding is implemented bit-exactly (round to nearest, ties to even,
overflow to infinity) with plain natural-number arithmetic so that all
definitions evaluate inside the kernel.  A thrown exception (`RangeError`
from an out-of-bounds `DataView` read or `Uint8Array` write) is modelled
by `Option.none`.
-/

namespace WebM

/-- A nonnegative dyadic rational `m * 2 ^ e`: the magnitude of a finite
IEEE-754 value.  The representation is not normalised. -/
structure Dyadic where
  m : ℕ
  e : ℤ
deriving DecidableEq

/-- The rational value of a dyadic magnitude. -/
def Dyadic.val (d : Dyadic) : ℚ := (d.m : ℚ) * (2 : ℚ) ^ d.e

/-- A JavaScript number as seen by the float paths of the source:
sign-magnitude finite value, signed infinity, or NaN. -/
inductive JSNum where
  | fin (neg : Bool) (mag : Dyadic)
  | inf (neg : Bool)
  | nan
deriving DecidableEq

/-- Fueled base-2 logarithm (floor); structural recursion so that the
kernel can evaluate it. -/
def nlog2go : ℕ → ℕ → ℕ
  | 0, _ => 0
  | fuel + 1, n => if n ≤ 1 then 0 else nlog2go fuel (n / 2) + 1

/-- `nlog2 n = ⌊log₂ n⌋` for `n ≥ 1` (see `nlog2_bounds`). -/
def nlog2 (n : ℕ) : ℕ := nlog2go n n

/-- Decide `a * 2 ^ k ≤ b` for naturals `a b` and an integer `k`. -/
def shiftLe (a : ℕ) (k : ℤ) (b : ℕ) : Bool :=
  if 0 ≤ k then a * 2 ^ k.toNat ≤ b else a ≤ b * 2 ^ (-k).toNat

/-- The binary exponent of the positive rational `(num / den) * 2 ^ e`:
the unique `E` with `2 ^ E ≤ (num / den) * 2 ^ e < 2 ^ (E + 1)`
(see `ratExp_bounds`). -/
def ratExp (num den : ℕ) (e : ℤ) : ℤ :=
  let f0 : ℤ := (nlog2 num : ℤ) - (nlog2 den : ℤ)
  (if shiftLe den f0 num then f0 else f0 - 1) + e

/-- Round the ratio `a / b` (`b ≥ 1`) to the nearest natural number,
ties to even. -/
def roundHE (a b : ℕ) : ℕ :=
  let q := a / b
  let r := a % b
  if 2 * r < b then q else if b < 2 * r then q + 1
  else if q % 2 = 0 then q else q + 1

/-- IEEE-754 rounding (round to nearest, ties to even) of the nonnegative
rational `(num / den) * 2 ^ e` to a float format with `prec` significand
bits and minimum normal exponent `emin`; the exponent is left unbounded
above (overflow is checked by the callers). -/
def roundPos (prec emin : ℤ) (num den : ℕ) (e : ℤ) : Dyadic :=
  if num = 0 then ⟨0, 0⟩ else
  let E := ratExp num den e
  let u := max (E - (prec - 1)) (emin - (prec - 1))
  let s := e - u
  let mant := if 0 ≤ s then roundHE (num * 2 ^ s.toNat) den
              else roundHE num (den * 2 ^ (-s).toNat)
  ⟨mant, u⟩

/-- `q` is exactly representable in a float format with `prec` significand
bits and minimum normal exponent `emin`: `q = k * 2 ^ t` with
`k < 2 ^ prec` and `t` at least the subnormal ulp exponent. -/
def FRepr (prec emin : ℤ) (q : ℚ) : Prop :=
  ∃ (k : ℕ) (t : ℤ), (k : ℚ) * 2 ^ t = q ∧ (k : ℚ) < 2 ^ prec ∧ emin - (prec - 1) ≤ t

/-- Round the nonnegative rational `(num / den) * 2 ^ e` to a binary64
(a JavaScript number) with the given sign, overflowing to infinity. -/
def f64ofRatio (neg : Bool) (num den : ℕ) (e : ℤ) : JSNum :=
  let r := roundPos 53 (-1022) num den e
  if shiftLe 1 (1024 - r.e) r.m then JSNum.inf neg else JSNum.fin neg r

/-- JavaScript `x * y` on IEEE-754 doubles. -/
def jsMul : JSNum → JSNum → JSNum
  | JSNum.nan, _ => JSNum.nan
  | _, JSNum.nan => JSNum.nan
  | JSNum.inf s, JSNum.inf t => JSNum.inf (xor s t)
  | JSNum.inf s, JSNum.fin t d => if d.m = 0 then JSNum.nan else JSNum.inf (xor s t)
  | JSNum.fin s d, JSNum.inf t => if d.m = 0 then JSNum.nan else JSNum.inf (xor s t)
  | JSNum.fin s d, JSNum.fin t d₂ => f64ofRatio (xor s t) (d.m * d₂.m) 1 (d.e + d₂.e)

/-- JavaScript `x / den` on IEEE-754 doubles, for a positive integer
literal `den` (the source divides by the literal `1000` twice). -/
def jsDiv (x : JSNum) (den : ℕ) : JSNum :=
  match x with
  | JSNum.nan => JSNum.nan
  | JSNum.inf s => JSNum.inf s
  | JSNum.fin s d => f64ofRatio s d.m den d.e

/-- Decode a big-endian IEEE-754 binary32 from four bytes, as
`DataView.getFloat32(o, false)` does. -/
def decodeF32 (b0 b1 b2 b3 : ℕ) : JSNum :=
  let s : Bool := decide (128 ≤ b0)
  let exp8 := b0 % 128 * 2 + b1 / 128
  let frac := b1 % 128 * 65536 + b2 * 256 + b3
  if exp8 = 255 then (if frac = 0 then JSNum.inf s else JSNum.nan)
  else if exp8 = 0 then JSNum.fin s ⟨frac, -149⟩
  else JSNum.fin s ⟨8388608 + frac, (exp8 : ℤ) - 150⟩

/-- Pack sign, biased exponent and fraction into the four big-endian
bytes of a binary32. -/
def packF32 (s : Bool) (exp8 frac : ℕ) : List ℕ :=
  [(if s then 128 else 0) + exp8 / 2, exp8 % 2 * 128 + frac / 65536,
   frac / 256 % 256, frac % 256]

/-- Big-endian bytes written by `DataView.setFloat32(o, x, false)`:
round the double to binary32 (nearest, ties to even), overflow to the
infinity of the same sign, NaN canonicalised to `0x7FC00000`. -/
def encodeF32 : JSNum → List ℕ
  | JSNum.nan => [127, 192, 0, 0]
  | JSNum.inf s => [(if s then 255 else 127), 128, 0, 0]
  | JSNum.fin s d =>
    let r := roundPos 24 (-126) d.m 1 d.e
    if r.m = 0 then [(if s then 128 else 0), 0, 0, 0]
    else if shiftLe 1 (128 - r.e) r.m then [(if s then 255 else 127), 128, 0, 0]
    else
      let L := nlog2 r.m
      let E : ℤ := (L : ℤ) + r.e
      if E < -126 then packF32 s 0 (r.m * 2 ^ (r.e + 149).toNat)
      else
        let M := if 23 ≤ L then r.m / 2 ^ (L - 23) else r.m * 2 ^ (23 - L)
        packF32 s (E + 127).toNat (M - 8388608)

/-- Apply `decodeF32` to the four bytes of an encoded float (helper for
stating round-trip facts about `encodeF32`, whose result always has
length 4). -/
def decodeF32L (bs : List ℕ) : JSNum :=
  decodeF32 (bs.getD 0 0) (bs.getD 1 0) (bs.getD 2 0) (bs.getD 3 0)

/-! ### Buffer primitives (`DataView` reads, `Uint8Array` writes) -/

/-- `DataView.getUint8(o)`; `none` models the thrown `RangeError`. -/
def getUint8 (l : List ℕ) (o : ℕ) : Option ℕ := l[o]?

/-- `DataView.getUint32(o, false)` (big-endian); `none` models the thrown
`RangeError` when fewer than four bytes remain. -/
def getUint32 (l : List ℕ) (o : ℕ) : Option ℕ := do
  let a ← l[o]?
  let b ← l[o + 1]?
  let c ← l[o + 2]?
  let d ← l[o + 3]?
  pure (a * 16777216 + b * 65536 + c * 256 + d)

/-- `DataView.getFloat32(o, false)` (big-endian); `none` models the thrown
`RangeError` when fewer than four bytes remain. -/
def getFloat32 (l : List ℕ) (o : ℕ) : Option JSNum := do
  let a ← l[o]?
  let b ← l[o + 1]?
  let c ← l[o + 2]?
  let d ← l[o + 3]?
  pure (decodeF32 a b c d)

/-- Overwrite the bytes of `l` starting at index `o` with `bs`
(`Uint8Array.prototype.set` after the bounds checks have passed). -/
def overwrite : List ℕ → ℕ → List ℕ → List ℕ
  | l, _, [] => l
  | l, o, b :: bs => overwrite (l.set o b) (o + 1) bs

/-- `new Uint8Array(buffer, o, sz).set(bs)`: the view constructor throws a
`RangeError` unless `o + sz ≤ l.length`, and `set` throws unless the
source fits, `bs.length ≤ sz`; both thrown errors are modelled by `none`. -/
def writeAt (l : List ℕ) (o sz : ℕ) (bs : List ℕ) : Option (List ℕ) :=
  if o + sz ≤ l.length ∧ bs.length ≤ sz then some (overwrite l o bs) else none

/-! ### The decoder (`class Decoder`) -/

/-- The record returned by `Decoder._readEbmlHeader`. -/
structure EbmlHeader where
  id : ℕ
  size : ℕ
  headerLength : ℕ
deriving DecidableEq

/-- `Decoder._readEbmlHeader`: a fixed 4-byte big-endian ID and one size
byte masked with `0x7F` (`& 0x7F` equals `% 128` on bytes); the header
length is always 5.  `none` models the `RangeError` thrown by an
out-of-bounds `DataView` read. -/
def readEbmlHeader (l : List ℕ) (o : ℕ) : Option EbmlHeader := do
  let id ← getUint32 l o
  let sizeByte ← getUint8 l (o + 4)
  pure ⟨id, sizeByte % 128, 5⟩

/-- `Decoder._getTagName`: the tag dictionary, defaulting to `Unknown`. -/
def getTagName (id : ℕ) : String :=
  if id = 0x18538067 then "Segment"
  else if id = 0x1549A966 then "Info"
  else if id = 0x2AD7B1 then "TimecodeScale"
  else if id = 0x4489 then "Duration"
  else "Unknown"

/-- `Decoder._getTagType`: the kind dictionary, defaulting to binary. -/
def getTagType (id : ℕ) : Char :=
  if id = 0x18538067 then 'm'
  else if id = 0x1549A966 then 'm'
  else if id = 0x2AD7B1 then 'u'
  else if id = 0x4489 then 'f'
  else 'b'

/-- A decoded element, as built by `Decoder.decode`: the `offset` field
records the value of the scan loop's `offset` variable when the element
was created (so `dataOffset = offset + headerLength`). -/
inductive Element where
  | mk (name : String) (type : Char) (offset dataOffset dataSize : ℕ)
       (value : Option JSNum) (children : List Element)

def Element.name : Element → String
  | .mk n _ _ _ _ _ _ => n

def Element.type : Element → Char
  | .mk _ t _ _ _ _ _ => t

def Element.offset : Element → ℕ
  | .mk _ _ o _ _ _ _ => o

def Element.dataOffset : Element → ℕ
  | .mk _ _ _ d _ _ _ => d

def Element.dataSize : Element → ℕ
  | .mk _ _ _ _ s _ _ => s

def Element.value : Element → Option JSNum
  | .mk _ _ _ _ _ v _ => v

def Element.children : Element → List Element
  | .mk _ _ _ _ _ _ c => c

/-- Replace the `children` array of an element (the JS code mutates it in
place with `push`). -/
def Element.setChildren : Element → List Element → Element
  | .mk n t o d s v _, c => .mk n t o d s v c

/-- Replace the `value` field of an element. -/
def Element.setValue : Element → Option JSNum → Element
  | .mk n t o d s _ c, v => .mk n t o d s v c

/-- `array.find(e => e.name === n)`. -/
def findName (es : List Element) (n : String) : Option Element :=
  es.find? (fun e => e.name == n)

/-- The scan loop of `Decoder.decode`, with explicit fuel: the loop
advances `offset` by `headerLength + size ≥ 5` bytes per iteration, so
`l.length + 1` fuel always suffices (`decodeFrom_fuel`). `none` models a
`RangeError` thrown by one of the `DataView` reads. -/
def decodeFrom (l : List ℕ) : ℕ → ℕ → Option (List Element)
  | 0, _ => none
  | fuel + 1, offset =>
    if offset < l.length then
      match readEbmlHeader l offset with
      | none => none
      | some hd =>
        let dataOffset := offset + hd.headerLength
        let t := getTagType hd.id
        let value? : Option (Option JSNum) :=
          if t = 'f' then (getFloat32 l dataOffset).map some
          else if t = 'u' then
            (getUint32 l dataOffset).map (fun n => some (JSNum.fin false ⟨n, 0⟩))
          else some none
        match value? with
        | none => none
        | some v =>
          match decodeFrom l fuel (dataOffset + hd.size) with
          | none => none
          | some rest =>
            some (Element.mk (getTagName hd.id) t offset dataOffset hd.size v [] :: rest)
    else some []

/-- Replace the first element named `n` (the JS code mutates that object
in place; its array slot keeps pointing at it). -/
def replaceFirst (es : List Element) (n : String) (e' : Element) : List Element :=
  match es with
  | [] => []
  | e :: rest => if e.name == n then e' :: rest else e :: replaceFirst rest n e'

/-- The manual tree construction at the end of `Decoder.decode`: push the
first `Duration` and `TimecodeScale` elements (in that order, when
present) into the first `Info` element's `children`, and that `Info` into
the first `Segment` element's `children`. -/
def stitch (es : List Element) : List Element :=
  match findName es "Segment" with
  | none => es
  | some seg =>
    match findName es "Info" with
    | none => es
    | some info =>
      let dur := findName es "Duration"
      let tc := findName es "TimecodeScale"
      let info' := info.setChildren (info.children ++ dur.toList ++ tc.toList)
      let seg' := seg.setChildren (seg.children ++ [info'])
      replaceFirst (replaceFirst es "Info" info') "Segment" seg'

/-- `Decoder.decode`: scan the whole buffer from offset 0, then stitch the
simplified tree. -/
def decode (l : List ℕ) : Option (List Element) :=
  (decodeFrom l (l.length + 1) 0).map stitch

/-! ### The patcher (`class WebMSeeker`) -/

/-- The element lookups of `WebMSeeker.process`: the first `Segment`, the
first `Info` among its children, and the first `Duration` and
`TimecodeScale` among that `Info`'s children.  `none` means `process`
returns the buffer unchanged. -/
def locate (elms : List Element) : Option (Element × Element) :=
  match findName elms "Segment" with
  | none => none
  | some segmentEl =>
    match findName segmentEl.children "Info" with
    | none => none
    | some infoEl =>
      match findName infoEl.children "Duration",
            findName infoEl.children "TimecodeScale" with
      | some durationEl, some timecodeScaleEl => some (durationEl, timecodeScaleEl)
      | _, _ => none

/-- A missing `value` field is `null` in JS, which arithmetic coerces
to `+0` (this case is unreachable for the elements `locate` returns). -/
def valueOf (e : Element) : JSNum := e.value.getD (JSNum.fin false ⟨0, 0⟩)

/-- `WebMSeeker.process` on the raw bytes of the blob: decode, locate
`Segment.Info.Duration` and `Segment.Info.TimecodeScale`; if both are
present compute `duration * timecodeScale / 1000 / 1000`, encode it as a
big-endian binary32 and overwrite the head of the `Duration` payload;
otherwise return the buffer unchanged.  `none` models an uncaught
exception reaching the caller. -/
def process (l : List ℕ) : Option (List ℕ) :=
  match decode l with
  | none => none
  | some elms =>
    match locate elms with
    | none => some l
    | some (durationEl, timecodeScaleEl) =>
      writeAt l durationEl.dataOffset durationEl.dataSize
        (encodeF32 (jsDiv (jsDiv (jsMul (valueOf durationEl) (valueOf timecodeScaleEl)) 1000) 1000))

/-- The patch target of a buffer: the `(Duration, TimecodeScale)` pair
`process` locates, when decoding succeeds and both are present. -/
def patchPlan (l : List ℕ) : Option (Element × Element) :=
  (decode l).bind locate

/-! ### `AdvancedVideoCapture.sanitizeFilename`

JS strings are modelled as lists of UTF-16 code units. -/

/-- The character class `<>:"/\|?*` together with the control range
`U+0000`–`U+001F`, removed by the first `replace`. -/
def isForbiddenChar (c : ℕ) : Bool :=
  c = 60 || c = 62 || c = 58 || c = 34 || c = 47 || c = 92 ||
  c = 124 || c = 63 || c = 42 || c ≤ 31

/-- The JS regexp class `\s` (which also matches exactly what
`String.prototype.trim` strips). -/
def isJsWhitespace (c : ℕ) : Bool :=
  (9 ≤ c && c ≤ 13) || c = 32 || c = 160 || c = 5760 ||
  (8192 ≤ c && c ≤ 8202) || c = 8232 || c = 8233 || c = 8239 ||
  c = 8287 || c = 12288 || c = 65279

/-- `String.prototype.trim`. -/
def jsTrim (l : List ℕ) : List ℕ :=
  ((l.dropWhile isJsWhitespace).reverse.dropWhile isJsWhitespace).reverse

/-- The class `[\s_]` of the final `replace`. -/
def isSpaceOrUnderscore (c : ℕ) : Bool := isJsWhitespace c || c = 95

/-- `.replace(/[\s_]+/g, "_")`: each maximal run of whitespace or
underscores becomes a single underscore.  The boolean tracks whether the
previous character belonged to the current run. -/
def collapseRuns : List ℕ → Bool → List ℕ
  | [], _ => []
  | c :: rest, inRun =>
    if isSpaceOrUnderscore c then
      if inRun then collapseRuns rest true else 95 :: collapseRuns rest true
    else c :: collapseRuns rest false

/-- The UTF-16 units of the fallback string `video_capture`. -/
def fallbackName : List ℕ := [118, 105, 100, 101, 111, 95, 99, 97, 112, 116, 117, 114, 101]

/-- The value of the local variable `sanitized` in
`AdvancedVideoCapture.sanitizeFilename`: remove forbidden characters,
trim, truncate to `maxLength` UTF-16 units, collapse
whitespace/underscore runs. -/
def sanitizeCore (title : List ℕ) (maxLength : ℕ) : List ℕ :=
  collapseRuns ((jsTrim (title.filter (fun c => !isForbiddenChar c))).take maxLength) false

/-- `AdvancedVideoCapture.sanitizeFilename(title, maxLength)`:
`sanitized || 'video_capture'` — the fallback is used exactly when the
sanitised string is empty. -/
def sanitizeFilename (title : List ℕ) (maxLength : ℕ) : List ℕ :=
  if sanitizeCore title maxLength = [] then fallbackName else sanitizeCore title maxLength

/-! ### Concrete sample buffers used by witnesses and counterexamples -/

/-- A buffer holding `Segment`, `Info`, `TimecodeScale = 2_000_000` and a
`Duration` element with declared payload size 4 whose payload is the
binary32 for `2.0`. -/
def bufDouble : List ℕ :=
  [0x18, 0x53, 0x80, 0x67, 0x80, 0x15, 0x49, 0xA9, 0x66, 0x80,
   0x00, 0x2A, 0xD7, 0xB1, 0x84, 0x00, 0x1E, 0x84, 0x80,
   0x00, 0x00, 0x44, 0x89, 0x84, 0x40, 0x00, 0x00, 0x00]

/-- `process bufDouble`: the `Duration` payload now holds the binary32
for `4.0 = 2.0 * 2_000_000 / 1000 / 1000`. -/
def outDouble : List ℕ :=
  [0x18, 0x53, 0x80, 0x67, 0x80, 0x15, 0x49, 0xA9, 0x66, 0x80,
   0x00, 0x2A, 0xD7, 0xB1, 0x84, 0x00, 0x1E, 0x84, 0x80,
   0x00, 0x00, 0x44, 0x89, 0x84, 0x40, 0x80, 0x00, 0x00]

/-- Like `bufDouble` but the `Duration` element declares an 8-byte
payload (`0x88`): binary32 for `2.0` followed by four trailing bytes. -/
def bufWide : List ℕ :=
  [0x18, 0x53, 0x80, 0x67, 0x80, 0x15, 0x49, 0xA9, 0x66, 0x80,
   0x00, 0x2A, 0xD7, 0xB1, 0x84, 0x00, 0x1E, 0x84, 0x80,
   0x00, 0x00, 0x44, 0x89, 0x88, 0x40, 0x00, 0x00, 0x00, 0xAA, 0xBB, 0xCC, 0xDD]

/-- What `process bufWide` actually returns: only the first four payload
bytes are overwritten (with the binary32 for `4.0`); the remaining four
payload bytes `AA BB CC DD` survive. -/
def outWide : List ℕ :=
  [0x18, 0x53, 0x80, 0x67, 0x80, 0x15, 0x49, 0xA9, 0x66, 0x80,
   0x00, 0x2A, 0xD7, 0xB1, 0x84, 0x00, 0x1E, 0x84, 0x80,
   0x00, 0x00, 0x44, 0x89, 0x88, 0x40, 0x80, 0x00, 0x00, 0xAA, 0xBB, 0xCC, 0xDD]

/-- What the claim would require for `bufWide`: the whole 8-byte payload
re-encoded as the binary64 for `4.0` (`40 10 00 00 00 00 00 00`). -/
def claimWide : List ℕ :=
  [0x18, 0x53, 0x80, 0x67, 0x80, 0x15, 0x49, 0xA9, 0x66, 0x80,
   0x00, 0x2A, 0xD7, 0xB1, 0x84, 0x00, 0x1E, 0x84, 0x80,
   0x00, 0x00, 0x44, 0x89, 0x88, 0x40, 0x10, 0x00, 0x00, 0x00, 0x00, 0x00, 0x00]

/-- A buffer with `TimecodeScale = 1_000_000` and a `Duration` payload
holding a non-canonical (signalling) NaN `7F 80 00 01`. -/
def bufNan : List ℕ :=
  [0x18, 0x53, 0x80, 0x67, 0x80, 0x15, 0x49, 0xA9, 0x66, 0x80,
   0x00, 0x2A, 0xD7, 0xB1, 0x84, 0x00, 0x0F, 0x42, 0x40,
   0x00, 0x00, 0x44, 0x89, 0x84, 0x7F, 0x80, 0x00, 0x01]

/-- `process bufNan`: the NaN payload is canonicalised to `7F C0 00 00`. -/
def outNan : List ℕ :=
  [0x18, 0x53, 0x80, 0x67, 0x80, 0x15, 0x49, 0xA9, 0x66, 0x80,
   0x00, 0x2A, 0xD7, 0xB1, 0x84, 0x00, 0x0F, 0x42, 0x40,
   0x00, 0x00, 0x44, 0x89, 0x84, 0x7F, 0xC0, 0x00, 0x00]

/-! ## Lemmas about the byte-level write -/

theorem length_overwrite (bs : List ℕ) : ∀ (l : List ℕ) (o : ℕ),
    (overwrite l o bs).length = l.length := by
  induction bs with
  | nil => intro l o; rfl
  | cons b bs ih =>
    intro l o
    show (overwrite (l.set o b) (o + 1) bs).length = l.length
    rw [ih, List.length_set]

theorem overwrite_getElem?_outside (bs : List ℕ) : ∀ (l : List ℕ) (o i : ℕ),
    i < o ∨ o + bs.length ≤ i → (overwrite l o bs)[i]? = l[i]? := by
  induction bs with
  | nil => intro l o i _; rfl
  | cons b bs ih =>
    intro l o i hi
    simp only [List.length_cons] at hi
    show (overwrite (l.set o b) (o + 1) bs)[i]? = l[i]?
    rw [ih (l.set o b) (o + 1) i (by omega)]
    exact List.getElem?_set_ne (by omega)

theorem overwrite_getElem?_inside (bs : List ℕ) : ∀ (l : List ℕ) (o j : ℕ),
    j < bs.length → o + bs.length ≤ l.length → (overwrite l o bs)[o + j]? = bs[j]? := by
  induction bs with
  | nil => intro l o j hj _; exact absurd hj (by simp)
  | cons b bs ih =>
    intro l o j hj hb
    simp only [List.length_cons] at hb
    cases j with
    | zero =>
      have key : (overwrite (l.set o b) (o + 1) bs)[o]? = (l.set o b)[o]? :=
        overwrite_getElem?_outside bs _ _ _ (Or.inl (by omega))
      have hset : (l.set o b)[o]? = some b := List.getElem?_set_self (by omega)
      show (overwrite (l.set o b) (o + 1) bs)[o + 0]? = (b :: bs)[0]?
      simpa using key.trans hset
    | succ j =>
      have harr : o + (j + 1) = (o + 1) + j := by omega
      show (overwrite (l.set o b) (o + 1) bs)[o + (j + 1)]? = (b :: bs)[j + 1]?
      rw [harr, ih (l.set o b) (o + 1) j (by simpa using hj) (by rw [List.length_set]; omega)]
      simp

theorem list_set_eq_self : ∀ (l : List ℕ) (o b : ℕ), l[o]? = some b → l.set o b = l := by
  intro l
  induction l with
  | nil => intro o b h; exact absurd h (by simp)
  | cons x xs ih =>
    intro o b h
    cases o with
    | zero => simp only [List.getElem?_cons_zero, Option.some.injEq] at h; simp [h]
    | succ o =>
      simp only [List.getElem?_cons_succ] at h
      simp [List.set, ih o b h]

theorem overwrite_eq_self (bs : List ℕ) : ∀ (l : List ℕ) (o : ℕ),
    (∀ j, j < bs.length → l[o + j]? = bs[j]?) → overwrite l o bs = l := by
  induction bs with
  | nil => intro l o _; rfl
  | cons b bs ih =>
    intro l o h
    have h0 : l[o]? = some b := by simpa using h 0 (by simp)
    show overwrite (l.set o b) (o + 1) bs = l
    rw [list_set_eq_self l o b h0]
    refine ih l (o + 1) (fun j hj => ?_)
    have := h (j + 1) (by simpa using hj)
    rw [show o + (j + 1) = (o + 1) + j by omega] at this
    simpa using this

theorem encodeF32_length (x : JSNum) : (encodeF32 x).length = 4 := by
  cases x with
  | nan => rfl
  | inf s => rfl
  | fin s d =>
    simp only [encodeF32]
    split
    · rfl
    · split
      · rfl
      · split <;> rfl

/-! ## Claims settled by direct evaluation -/

set_option maxRecDepth 1000000

/-- Claim C2: for every non-EBML buffer (random bytes, truncated headers),
`process` is claimed to return the input byte-identically and never raise.
On the single-byte buffer `[0x00]` the code instead throws: `decode` calls
`_readEbmlHeader`, whose `getUint32(0)` reads past the end of the 1-byte
buffer and throws a `RangeError` that nothing catches (`none` in the
model), contradicting the claim. -/
theorem claim_C2 : process [0] = none := by decide

/-- Claim C5: the header reader is claimed to decode true variable-length
integers and fail with `MalformedEncoding` when the leading byte is
`0x00`.  The code instead unconditionally reads a fixed 4-byte ID plus
one size byte: on a buffer whose leading byte is `0x00` it succeeds,
returning id `0`, size `0` and header length `5`. -/
theorem claim_C5 : readEbmlHeader [0, 0, 0, 0, 0] 0 = some ⟨0, 0, 5⟩ := by decide

/-- Claim C1: the corrected duration is claimed to be re-encoded with the
byte width the `Duration` element declared (8 bytes for `bufWide`).  The
code always writes a 4-byte binary32: on `bufWide` (declared payload
width 8) it produces `outWide`, whose payload keeps its last four
original bytes, not `claimWide` (the full 8-byte binary64 re-encoding the
claim requires). -/
theorem claim_C1 : process bufWide = some outWide ∧ outWide ≠ claimWide :=
  ⟨by decide, by decide⟩

/-- Claim C6, counterexample: `process` is claimed idempotent, but with
`TimecodeScale = 2_000_000` each run multiplies the stored duration by 2:
on `bufDouble` the first run stores `4.0` and the second `8.0`. -/
theorem claim_C6_counterexample : (process bufDouble).bind process ≠ process bufDouble := by
  decide

/-- Claim C4: when decoding succeeds but the `Segment → Info → Duration /
TimecodeScale` lookups fail, `process` returns the buffer unchanged — the
absence is a normal outcome, not an error. -/
theorem claim_C4 (l : List ℕ) (es : List Element) (hdec : decode l = some es)
    (hmiss : locate es = none) : process l = some l := by
  unfold process
  split
  next hd => rw [hdec] at hd; exact absurd hd (by simp)
  next elms hd =>
    rw [hdec] at hd
    obtain rfl : es = elms := by injection hd
    split
    next => rfl
    next p hl => rw [hmiss] at hl; exact absurd hl (by simp)

/-- Witness for C4: a 5-byte buffer decoding to one unknown element; no
`Segment` is found and the buffer comes back unchanged. -/
theorem claim_C4_witness :
    decode [0, 0, 0, 0, 0] = some [Element.mk "Unknown" 'b' 0 5 0 none []] ∧
    locate [Element.mk "Unknown" 'b' 0 5 0 none []] = none ∧
    process [0, 0, 0, 0, 0] = some [0, 0, 0, 0, 0] :=
  ⟨rfl, rfl, claim_C4 _ _ rfl rfl⟩

/-- Claim C3: whenever `process` succeeds, the output has the length of
the input and agrees with it on every index outside the located
`Duration` element's payload range `[dataOffset, dataOffset + dataSize)`
(in particular everywhere, when nothing was located). -/
theorem claim_C3 (l out : List ℕ) (h : process l = some out) :
    out.length = l.length ∧
    ∀ i : ℕ, (∀ p : Element × Element, patchPlan l = some p →
        i < p.1.dataOffset ∨ p.1.dataOffset + p.1.dataSize ≤ i) →
      out[i]? = l[i]? := by
  unfold process at h
  split at h
  next => exact absurd h (by simp)
  next elms hdec =>
    split at h
    next hloc =>
      obtain rfl : l = out := by simpa using h
      exact ⟨rfl, fun i _ => rfl⟩
    next D T hloc =>
      unfold writeAt at h
      split at h
      case isTrue hcond =>
        obtain ⟨hin, hfit⟩ := hcond
        rw [encodeF32_length] at hfit
        obtain rfl : overwrite l D.dataOffset (encodeF32 _) = out := by simpa using h
        refine ⟨length_overwrite _ _ _, fun i hi => ?_⟩
        have hp : patchPlan l = some (D, T) := by
          unfold patchPlan
          rw [hdec, Option.some_bind, hloc]
        have hrange := hi (D, T) hp
        apply overwrite_getElem?_outside
        rw [encodeF32_length]
        simp only at hrange
        omega
      case isFalse => exact absurd h (by simp)

/-! ## Structural lemmas about the scan loop -/

theorem readEbmlHeader_shape (l : List ℕ) (o : ℕ) (hd : EbmlHeader)
    (h : readEbmlHeader l o = some hd) : hd.size ≤ 127 ∧ hd.headerLength = 5 := by
  unfold readEbmlHeader at h
  cases h32 : getUint32 l o with
  | none => rw [h32] at h; exact absurd h (by simp)
  | some id =>
    rw [h32] at h
    cases h8 : getUint8 l (o + 4) with
    | none => rw [h8] at h; exact absurd h (by simp)
    | some sb =>
      rw [h8] at h
      obtain rfl : EbmlHeader.mk id (sb % 128) 5 = hd := by simpa using h
      refine ⟨?_, rfl⟩
      show sb % 128 ≤ 127
      omega

/-- A successful header read consumed five in-bounds bytes, so the
cursor advance `headerLength + size ≥ 5` stays within the buffer. -/
theorem readEbmlHeader_bound (l : List ℕ) (o : ℕ) (hd : EbmlHeader)
    (h : readEbmlHeader l o = some hd) : o + 5 ≤ l.length := by
  unfold readEbmlHeader at h
  cases h32 : getUint32 l o with
  | none => rw [h32] at h; exact absurd h (by simp)
  | some id =>
    rw [h32] at h
    cases h8 : getUint8 l (o + 4) with
    | none => rw [h8] at h; exact absurd h (by simp)
    | some sb =>
      unfold getUint8 at h8
      by_contra hcon
      rw [List.getElem?_eq_none (by omega)] at h8
      exact absurd h8 (by simp)

/-- Fuel-independence of the scan: any two positive fuels that cover the
remaining buffer (`length ≤ offset + fuel`) produce the same result, so
the loop always reaches a genuine exit — the end-of-buffer check or a
`DataView` error — and never runs out of fuel.  Each iteration burns one
unit of fuel but advances the offset by `headerLength + size ≥ 5`. -/
theorem decodeFrom_fuel (l : List ℕ) : ∀ (fuel fuel' o : ℕ),
    l.length ≤ o + fuel → l.length ≤ o + fuel' → 0 < fuel → 0 < fuel' →
    decodeFrom l fuel o = decodeFrom l fuel' o := by
  intro fuel
  induction fuel with
  | zero => intro fuel' o _ _ hp _; exact absurd hp (by omega)
  | succ f ih =>
    intro fuel' o h1 h2 _ hp'
    cases fuel' with
    | zero => exact absurd hp' (by omega)
    | succ g =>
      unfold decodeFrom
      by_cases ho : o < l.length
      · rw [if_pos ho, if_pos ho]
        cases hhd : readEbmlHeader l o with
        | none => rfl
        | some hd =>
          dsimp only
          have h5 : hd.headerLength = 5 := (readEbmlHeader_shape l o hd hhd).2
          have hb : o + 5 ≤ l.length := readEbmlHeader_bound l o hd hhd
          rw [ih g (o + hd.headerLength + hd.size) (by omega) (by omega) (by omega)
            (by omega)]
      · rw [if_neg ho, if_neg ho]

theorem decodeFrom_mem (l : List ℕ) : ∀ (fuel o : ℕ) (es : List Element),
    decodeFrom l fuel o = some es → ∀ e ∈ es,
      o ≤ e.offset ∧ e.offset < l.length ∧ e.dataOffset = e.offset + 5 ∧
      e.dataSize ≤ 127 ∧ e.children = [] ∧
      ∃ id, e.name = getTagName id ∧ e.type = getTagType id := by
  intro fuel
  induction fuel with
  | zero => intro o es h; exact absurd h (by simp [decodeFrom])
  | succ fuel ih =>
    intro o es h
    simp only [decodeFrom] at h
    split at h
    case isFalse ho =>
      obtain rfl : [] = es := by simpa using h
      intro e he; exact absurd he (by simp)
    case isTrue ho =>
      split at h
      next => exact absurd h (by simp)
      next hd hhd =>
        split at h
        next => exact absurd h (by simp)
        next v hv =>
          split at h
          next => exact absurd h (by simp)
          next rest hrec =>
            obtain ⟨hsz, hhl⟩ := readEbmlHeader_shape l o hd hhd
            obtain rfl :
                Element.mk (getTagName hd.id) (getTagType hd.id) o (o + hd.headerLength)
                  hd.size v [] :: rest = es := by simpa using h
            intro e he
            rcases List.mem_cons.mp he with rfl | hmem
            · refine ⟨le_refl _, ho, ?_, hsz, rfl, hd.id, rfl, rfl⟩
              simp [Element.dataOffset, Element.offset, hhl]
            · obtain ⟨h1, h2, h3, h4, h5, h6⟩ := ih _ _ hrec e hmem
              exact ⟨by omega, h2, h3, h4, h5, h6⟩

theorem decodeFrom_count (l : List ℕ) : ∀ (fuel o : ℕ) (es : List Element),
    decodeFrom l fuel o = some es → 5 * es.length ≤ (l.length - o) + 4 := by
  intro fuel
  induction fuel with
  | zero => intro o es h; exact absurd h (by simp [decodeFrom])
  | succ fuel ih =>
    intro o es h
    simp only [decodeFrom] at h
    split at h
    case isFalse ho =>
      obtain rfl : [] = es := by simpa using h
      simp
    case isTrue ho =>
      split at h
      next => exact absurd h (by simp)
      next hd hhd =>
        split at h
        next => exact absurd h (by simp)
        next v hv =>
          split at h
          next => exact absurd h (by simp)
          next rest hrec =>
            obtain ⟨hsz, hhl⟩ := readEbmlHeader_shape l o hd hhd
            obtain rfl :
                Element.mk (getTagName hd.id) (getTagType hd.id) o (o + hd.headerLength)
                  hd.size v [] :: rest = es := by simpa using h
            have hc := ih _ _ hrec
            rw [hhl] at hc
            simp only [List.length_cons]
            omega

theorem mem_replaceFirst (n : String) (e' : Element) :
    ∀ (es : List Element), ∀ x ∈ replaceFirst es n e', x = e' ∨ x ∈ es := by
  intro es
  induction es with
  | nil => intro x hx; exact absurd hx (by simp [replaceFirst])
  | cons e rest ih =>
    intro x hx
    unfold replaceFirst at hx
    split at hx
    · rcases List.mem_cons.mp hx with rfl | hx
      · exact Or.inl rfl
      · exact Or.inr (List.mem_cons_of_mem _ hx)
    · rcases List.mem_cons.mp hx with rfl | hx
      · exact Or.inr (List.mem_cons_self _ _)
      · rcases ih x hx with h | h
        · exact Or.inl h
        · exact Or.inr (List.mem_cons_of_mem _ h)

theorem length_replaceFirst (n : String) (e' : Element) :
    ∀ (es : List Element), (replaceFirst es n e').length = es.length := by
  intro es
  induction es with
  | nil => rfl
  | cons e rest ih =>
    unfold replaceFirst
    split <;> simp [ih]

theorem Element.setChildren_self (e : Element) : e.setChildren e.children = e := by
  cases e; rfl

theorem stitch_mem (es : List Element) :
    ∀ x ∈ stitch es, ∃ y ∈ es, ∃ c, x = y.setChildren c := by
  intro x hx
  have self : x ∈ es → ∃ y ∈ es, ∃ c, x = y.setChildren c := fun hmem =>
    ⟨x, hmem, x.children, (Element.setChildren_self x).symm⟩
  unfold stitch at hx
  split at hx
  next => exact self hx
  next seg hseg =>
    split at hx
    next => exact self hx
    next info hinfo =>
      rcases mem_replaceFirst _ _ _ x hx with rfl | hx
      · exact ⟨seg, List.mem_of_find?_eq_some hseg, _, rfl⟩
      · rcases mem_replaceFirst _ _ _ x hx with rfl | hx
        · exact ⟨info, List.mem_of_find?_eq_some hinfo, _, rfl⟩
        · exact self hx

theorem length_stitch (es : List Element) : (stitch es).length = es.length := by
  unfold stitch
  split
  next => rfl
  next seg hseg =>
    split
    next => rfl
    next info hinfo => rw [length_replaceFirst, length_replaceFirst]

theorem Element.setChildren_fields (e : Element) (c : List Element) :
    (e.setChildren c).name = e.name ∧ (e.setChildren c).type = e.type ∧
    (e.setChildren c).offset = e.offset ∧ (e.setChildren c).dataOffset = e.dataOffset ∧
    (e.setChildren c).dataSize = e.dataSize ∧ (e.setChildren c).value = e.value := by
  cases e; exact ⟨rfl, rfl, rfl, rfl, rfl, rfl⟩

/-! ## Claims about the decoder's structure -/

/-- Claim C7: the tag dictionaries are total — every ID other than the
four known ones maps to name `Unknown` and kind `'b'` — and the scan
treats such an element as a skip, not an error: it appends the element
with no decoded value and continues at `offset + headerLength + size`. -/
theorem claim_C7 :
    (∀ id : ℕ, id ≠ 0x18538067 → id ≠ 0x1549A966 → id ≠ 0x2AD7B1 → id ≠ 0x4489 →
      getTagName id = "Unknown" ∧ getTagType id = 'b') ∧
    (∀ (l : List ℕ) (fuel offset : ℕ) (hd : EbmlHeader),
      offset < l.length → readEbmlHeader l offset = some hd → getTagType hd.id = 'b' →
      decodeFrom l (fuel + 1) offset =
        (decodeFrom l fuel (offset + hd.headerLength + hd.size)).map
          (fun rest =>
            Element.mk (getTagName hd.id) 'b' offset (offset + hd.headerLength)
              hd.size none [] :: rest)) := by
  constructor
  · intro id h1 h2 h3 h4
    constructor
    · simp [getTagName, h1, h2, h3, h4]
    · simp [getTagType, h1, h2, h3, h4]
  · intro l fuel offset hd ho hhd ht
    simp only [decodeFrom, if_pos ho, hhd]
    rw [ht]
    have hf : ('b' = 'f') = False := by simp
    have hu : ('b' = 'u') = False := by simp
    rw [if_neg (by simp), if_neg (by simp)]
    cases hrec : decodeFrom l fuel (offset + hd.headerLength + hd.size) with
    | none => simp
    | some rest => simp [ht]

/-- Witness for C7: the unknown ID `0x09090909` maps to `Unknown`/`'b'`,
and scanning the 5-byte buffer `[9,9,9,9,0]` appends the unknown element
and continues past it. -/
theorem claim_C7_witness :
    (getTagName 151587081 = "Unknown" ∧ getTagType 151587081 = 'b') ∧
    ((0:ℕ) < 5 ∧ readEbmlHeader [9, 9, 9, 9, 0] 0 = some ⟨151587081, 0, 5⟩ ∧
     decodeFrom [9, 9, 9, 9, 0] 2 0 =
       (decodeFrom [9, 9, 9, 9, 0] 1 (0 + 5 + 0)).map
         (fun rest =>
           Element.mk (getTagName 151587081) 'b' 0 (0 + 5) 0 none [] :: rest)) :=
  ⟨claim_C7.1 151587081 (by decide) (by decide) (by decide) (by decide),
   by decide,
   by decide,
   claim_C7.2 [9, 9, 9, 9, 0] 1 0 ⟨151587081, 0, 5⟩ (by decide) (by decide) (by decide)⟩

/-- Claim C8: every element the decoder produces has a declared payload
size of at most 127 bytes and a payload offset exactly 5 bytes past the
element's start (4-byte ID plus 1-byte size). -/
theorem claim_C8 (l : List ℕ) (es : List Element) (h : decode l = some es) :
    ∀ e ∈ es, e.dataSize ≤ 127 ∧ e.dataOffset = e.offset + 5 := by
  unfold decode at h
  cases hscan : decodeFrom l (l.length + 1) 0 with
  | none => rw [hscan] at h; exact absurd h (by simp)
  | some es0 =>
    rw [hscan] at h
    obtain rfl : stitch es0 = es := by simpa using h
    intro e he
    obtain ⟨y, hy, c, rfl⟩ := stitch_mem es0 e he
    obtain ⟨-, -, h3, h4, -, -⟩ := decodeFrom_mem l _ _ _ hscan y hy
    obtain ⟨-, -, hoff, hdoff, hsz, -⟩ := Element.setChildren_fields y c
    rw [hdoff, hsz, hoff]
    exact ⟨h4, h3⟩

/-- Witness for C8: a 5-byte buffer with one unknown element of declared
size 127; its payload offset is its start plus 5. -/
theorem claim_C8_witness :
    decode [0, 0, 0, 0, 255] = some [Element.mk "Unknown" 'b' 0 5 127 none []] ∧
    ∀ e ∈ [Element.mk "Unknown" 'b' 0 5 127 none []],
      e.dataSize ≤ 127 ∧ e.dataOffset = e.offset + 5 :=
  ⟨rfl, claim_C8 [0, 0, 0, 0, 255] [Element.mk "Unknown" 'b' 0 5 127 none []] rfl⟩

/-- Claim C9: the scan loop terminates on every input buffer.  Every
fuel of at least `l.length + 1` gives the same result as the
`l.length + 1` that `decode` supplies, so on no buffer is the fuel
exhausted: a `none` is a genuine `DataView` error, never divergence.
The loop exits with `some []` as soon as the offset reaches the buffer
length; every successfully read header has `headerLength = 5` and lies
within the buffer, so each iteration advances the offset by at least 5;
hence on success the element count is bounded by `⌈length / 5⌉` (stated
as `5 * count ≤ length + 4`). -/
theorem claim_C9 (l : List ℕ) :
    (∀ fuel, l.length + 1 ≤ fuel → decodeFrom l fuel 0 = decodeFrom l (l.length + 1) 0) ∧
    (∀ fuel o, l.length ≤ o → decodeFrom l (fuel + 1) o = some []) ∧
    (∀ (o : ℕ) (hd : EbmlHeader), readEbmlHeader l o = some hd →
      hd.headerLength = 5 ∧ o + 5 ≤ l.length) ∧
    (∀ es, decode l = some es → 5 * es.length ≤ l.length + 4) := by
  refine ⟨?_, ?_, ?_, ?_⟩
  · intro fuel hf
    exact decodeFrom_fuel l fuel (l.length + 1) 0 (by omega) (by omega) (by omega) (by omega)
  · intro fuel o ho
    unfold decodeFrom
    rw [if_neg (by omega)]
  · intro o hd hhd
    exact ⟨(readEbmlHeader_shape l o hd hhd).2, readEbmlHeader_bound l o hd hhd⟩
  · intro es h
    unfold decode at h
    cases hscan : decodeFrom l (l.length + 1) 0 with
    | none => rw [hscan] at h; exact absurd h (by simp)
    | some es0 =>
      rw [hscan] at h
      obtain rfl : stitch es0 = es := by simpa using h
      have := decodeFrom_count l _ _ _ hscan
      rw [length_stitch]
      omega

/-- Witness for C9, on the 5-byte buffer `[0,0,0,0,255]`: fuel 9 and the
canonical fuel 6 agree, the loop exits at offset 7 ≥ 5 with fuel to
spare, the header at offset 0 reads `⟨0, 127, 5⟩` within bounds, and the
one decoded element satisfies `5 * 1 ≤ 5 + 4`. -/
theorem claim_C9_witness :
    decodeFrom [0, 0, 0, 0, 255] 9 0 = decodeFrom [0, 0, 0, 0, 255] 6 0 ∧
    decodeFrom [0, 0, 0, 0, 255] 3 7 = some [] ∧
    ((⟨0, 127, 5⟩ : EbmlHeader).headerLength = 5 ∧
      0 + 5 ≤ ([0, 0, 0, 0, 255] : List ℕ).length) ∧
    5 * ([Element.mk "Unknown" 'b' 0 5 127 none []] : List Element).length ≤
      ([0, 0, 0, 0, 255] : List ℕ).length + 4 :=
  ⟨(claim_C9 [0, 0, 0, 0, 255]).1 9 (by decide),
   (claim_C9 [0, 0, 0, 0, 255]).2.1 2 7 (by decide),
   (claim_C9 [0, 0, 0, 0, 255]).2.2.1 0 ⟨0, 127, 5⟩ (by decide),
   (claim_C9 [0, 0, 0, 0, 255]).2.2.2 [Element.mk "Unknown" 'b' 0 5 127 none []] rfl⟩

/-! ## Lemmas about `sanitizeFilename` -/

theorem length_collapseRuns : ∀ (l : List ℕ) (b : Bool),
    (collapseRuns l b).length ≤ l.length := by
  intro l
  induction l with
  | nil => intro b; simp [collapseRuns]
  | cons c rest ih =>
    intro b
    unfold collapseRuns
    split
    · split
      · exact le_trans (ih true) (by simp)
      · simpa using ih true
    · simpa using ih false

theorem mem_collapseRuns : ∀ (l : List ℕ) (b : Bool), ∀ c ∈ collapseRuns l b,
    c = 95 ∨ (c ∈ l ∧ isSpaceOrUnderscore c = false) := by
  intro l
  induction l with
  | nil => intro b c hc; exact absurd hc (by simp [collapseRuns])
  | cons d rest ih =>
    intro b c hc
    unfold collapseRuns at hc
    split at hc
    · split at hc
      · rcases ih true c hc with h | ⟨h1, h2⟩
        · exact Or.inl h
        · exact Or.inr ⟨List.mem_cons_of_mem _ h1, h2⟩
      · rcases List.mem_cons.mp hc with rfl | hc
        · exact Or.inl rfl
        · rcases ih true c hc with h | ⟨h1, h2⟩
          · exact Or.inl h
          · exact Or.inr ⟨List.mem_cons_of_mem _ h1, h2⟩
    · rcases List.mem_cons.mp hc with rfl | hc
      next hclass => exact Or.inr ⟨List.mem_cons_self _ _, by simpa using hclass⟩
      next hclass =>
        rcases ih false c hc with h | ⟨h1, h2⟩
        · exact Or.inl h
        · exact Or.inr ⟨List.mem_cons_of_mem _ h1, h2⟩

theorem collapseRuns_true_head : ∀ (l : List ℕ) (c : ℕ),
    (collapseRuns l true).head? = some c → isSpaceOrUnderscore c = false := by
  intro l
  induction l with
  | nil => intro c hc; exact absurd hc (by simp [collapseRuns])
  | cons d rest ih =>
    intro c hc
    unfold collapseRuns at hc
    split at hc
    · exact ih c hc
    next hclass =>
      obtain rfl : d = c := by simpa using hc
      simpa using hclass

theorem chain_collapseRuns : ∀ (l : List ℕ) (b : Bool),
    List.Chain' (fun a c => ¬(a = 95 ∧ c = 95)) (collapseRuns l b) := by
  intro l
  induction l with
  | nil => intro b; simp [collapseRuns]
  | cons d rest ih =>
    intro b
    unfold collapseRuns
    split
    · split
      · exact ih true
      · rw [List.chain'_cons']
        refine ⟨fun y hy => ?_, ih true⟩
        have := collapseRuns_true_head rest y hy
        rintro ⟨-, rfl⟩
        simp [isSpaceOrUnderscore] at this
    next hclass =>
      rw [List.chain'_cons']
      refine ⟨fun y hy => ?_, ih false⟩
      rintro ⟨rfl, -⟩
      simp [isSpaceOrUnderscore] at hclass

theorem mem_jsTrim (l : List ℕ) (c : ℕ) (h : c ∈ jsTrim l) : c ∈ l := by
  unfold jsTrim at h
  rw [List.mem_reverse] at h
  have h2 := List.Sublist.mem h (List.dropWhile_sublist _)
  rw [List.mem_reverse] at h2
  exact List.Sublist.mem h2 (List.dropWhile_sublist _)

/-- Claim C10: for every input string, `sanitizeFilename` with the
default `maxLength = 50` returns a non-empty string of at most 50 UTF-16
units, free of the forbidden characters and of whitespace, with no two
adjacent underscores (runs were collapsed), and equal to the fallback
`video_capture` exactly when sanitisation left nothing. -/
theorem claim_C10 (title : List ℕ) :
    sanitizeFilename title 50 ≠ [] ∧
    (sanitizeFilename title 50).length ≤ 50 ∧
    (∀ c ∈ sanitizeFilename title 50, isForbiddenChar c = false ∧ isJsWhitespace c = false) ∧
    List.Chain' (fun a c => ¬(a = 95 ∧ c = 95)) (sanitizeFilename title 50) ∧
    (sanitizeCore title 50 = [] → sanitizeFilename title 50 = fallbackName) := by
  unfold sanitizeFilename
  by_cases hc : sanitizeCore title 50 = []
  · rw [if_pos hc]
    exact ⟨by decide, by decide, by decide, by simp [fallbackName, List.chain'_cons], fun _ => rfl⟩
  · rw [if_neg hc]
    refine ⟨hc, ?_, ?_, ?_, fun h => absurd h hc⟩
    · unfold sanitizeCore
      exact le_trans (length_collapseRuns _ _) (List.length_take_le 50 _)
    · intro c hcmem
      unfold sanitizeCore at hcmem
      rcases mem_collapseRuns _ _ c hcmem with rfl | ⟨h1, h2⟩
      · exact ⟨by decide, by decide⟩
      · have hfil : c ∈ (title.filter (fun c => !isForbiddenChar c)) :=
          mem_jsTrim _ c (List.mem_of_mem_take h1)
        have hforb := (List.mem_filter.mp hfil).2
        refine ⟨by simpa using hforb, ?_⟩
        unfold isSpaceOrUnderscore at h2
        simpa using (Bool.or_eq_false_iff.mp h2).1
    · exact chain_collapseRuns _ _

/-! ## The exact-rounding theory of the dyadic float model

These lemmas establish that `roundPos` really is IEEE-754
round-to-nearest (in particular: it is the identity on representable
values), which claim C6's idempotence argument needs. -/

theorem two_zpow_pos (k : ℤ) : (0 : ℚ) < 2 ^ k := zpow_pos (by norm_num) k

theorem two_zpow_ne_zero (k : ℤ) : (2 : ℚ) ^ k ≠ 0 := ne_of_gt (two_zpow_pos k)

theorem two_zpow_le_iff {m n : ℤ} : (2 : ℚ) ^ m ≤ 2 ^ n ↔ m ≤ n :=
  zpow_le_zpow_iff_right₀ one_lt_two

theorem two_zpow_lt_iff {m n : ℤ} : (2 : ℚ) ^ m < 2 ^ n ↔ m < n :=
  zpow_lt_zpow_iff_right₀ one_lt_two

theorem two_zpow_natCast (n : ℕ) : (2 : ℚ) ^ (n : ℤ) = ((2 ^ n : ℕ) : ℚ) := by
  rw [zpow_natCast, Nat.cast_pow]
  norm_num

theorem nlog2go_bounds : ∀ (fuel n : ℕ), 1 ≤ n → n ≤ fuel →
    2 ^ nlog2go fuel n ≤ n ∧ n < 2 ^ (nlog2go fuel n + 1) := by
  intro fuel
  induction fuel with
  | zero => intro n h1 h2; omega
  | succ fuel ih =>
    intro n h1 h2
    unfold nlog2go
    split
    next hle =>
      have : n = 1 := by omega
      subst this
      simp
    next hgt =>
      have h3 : 1 ≤ n / 2 := by omega
      have h4 : n / 2 ≤ fuel := by omega
      obtain ⟨ha, hb⟩ := ih (n / 2) h3 h4
      have e1 : 2 ^ (nlog2go fuel (n / 2) + 1) = 2 * 2 ^ nlog2go fuel (n / 2) := by ring
      have e2 : 2 ^ (nlog2go fuel (n / 2) + 1 + 1) = 2 * 2 ^ (nlog2go fuel (n / 2) + 1) := by
        ring
      omega

theorem nlog2_bounds {n : ℕ} (h : 1 ≤ n) : 2 ^ nlog2 n ≤ n ∧ n < 2 ^ (nlog2 n + 1) :=
  nlog2go_bounds n n h (le_refl n)

theorem nlog2_unique {n a : ℕ} (h1 : 2 ^ a ≤ n) (h2 : n < 2 ^ (a + 1)) : nlog2 n = a := by
  have hn : 1 ≤ n := le_trans Nat.one_le_two_pow h1
  obtain ⟨b1, b2⟩ := nlog2_bounds hn
  rcases Nat.lt_trichotomy (nlog2 n) a with hlt | heq | hgt
  · have : 2 ^ (nlog2 n + 1) ≤ 2 ^ a := Nat.pow_le_pow_right (by norm_num) (by omega)
    omega
  · exact heq
  · have : 2 ^ (a + 1) ≤ 2 ^ nlog2 n := Nat.pow_le_pow_right (by norm_num) (by omega)
    omega

theorem nlog2_mul_pow {n : ℕ} (h : 1 ≤ n) (k : ℕ) : nlog2 (n * 2 ^ k) = nlog2 n + k := by
  obtain ⟨b1, b2⟩ := nlog2_bounds h
  apply nlog2_unique
  · rw [pow_add]
    exact Nat.mul_le_mul_right _ b1
  · rw [show nlog2 n + k + 1 = (nlog2 n + 1) + k by omega, pow_add]
    exact mul_lt_mul_of_pos_right b2 (Nat.pos_pow_of_pos k (by norm_num))

theorem shiftLe_iff (a : ℕ) (k : ℤ) (b : ℕ) :
    shiftLe a k b = true ↔ (a : ℚ) * 2 ^ k ≤ (b : ℚ) := by
  unfold shiftLe
  split
  next hk =>
    rw [decide_eq_true_eq]
    have h2 : (2 : ℚ) ^ k = ((2 ^ k.toNat : ℕ) : ℚ) := by
      rw [← two_zpow_natCast, Int.toNat_of_nonneg hk]
    rw [h2, ← Nat.cast_mul, Nat.cast_le]
  next hk =>
    rw [decide_eq_true_eq]
    have hk' : (0 : ℤ) ≤ -k := by omega
    have h2 : (2 : ℚ) ^ (-k) = ((2 ^ (-k).toNat : ℕ) : ℚ) := by
      rw [← two_zpow_natCast, Int.toNat_of_nonneg hk']
    have hfact : (2 : ℚ) ^ k * 2 ^ (-k) = 1 := by
      rw [← zpow_add₀ (two_ne_zero), add_neg_cancel, zpow_zero]
    constructor
    · intro h
      have hc : (a : ℚ) ≤ (b : ℚ) * 2 ^ (-k) := by
        rw [h2, ← Nat.cast_mul]
        exact_mod_cast h
      calc (a : ℚ) * 2 ^ k ≤ ((b : ℚ) * 2 ^ (-k)) * 2 ^ k :=
            mul_le_mul_of_nonneg_right hc (le_of_lt (two_zpow_pos k))
        _ = (b : ℚ) := by rw [mul_assoc, mul_comm ((2:ℚ) ^ (-k)), hfact, mul_one]
    · intro h
      have hc : (a : ℚ) ≤ (b : ℚ) * 2 ^ (-k) := by
        calc (a : ℚ) = (a : ℚ) * 2 ^ k * 2 ^ (-k) := by
              rw [mul_assoc, hfact, mul_one]
          _ ≤ (b : ℚ) * 2 ^ (-k) :=
              mul_le_mul_of_nonneg_right h (le_of_lt (two_zpow_pos (-k)))
      rw [h2, ← Nat.cast_mul] at hc
      exact_mod_cast hc

theorem ratExp_bounds (num den : ℕ) (e : ℤ) (hnum : 1 ≤ num) (hden : 1 ≤ den) :
    (2 : ℚ) ^ ratExp num den e ≤ (num : ℚ) / den * 2 ^ e ∧
    (num : ℚ) / den * 2 ^ e < 2 ^ (ratExp num den e + 1) := by
  obtain ⟨hn1, hn2⟩ := nlog2_bounds hnum
  obtain ⟨hd1, hd2⟩ := nlog2_bounds hden
  have hden0 : (0 : ℚ) < den := by exact_mod_cast hden
  have hq1 : ((2 : ℚ) ^ (nlog2 num : ℤ)) ≤ num := by
    rw [two_zpow_natCast]; exact_mod_cast hn1
  have hq2 : (num : ℚ) < 2 ^ ((nlog2 num : ℤ) + 1) := by
    rw [show (nlog2 num : ℤ) + 1 = ((nlog2 num + 1 : ℕ) : ℤ) by push_cast; ring,
      two_zpow_natCast]
    exact_mod_cast hn2
  have hq3 : ((2 : ℚ) ^ (nlog2 den : ℤ)) ≤ den := by
    rw [two_zpow_natCast]; exact_mod_cast hd1
  have hq4 : (den : ℚ) < 2 ^ ((nlog2 den : ℤ) + 1) := by
    rw [show (nlog2 den : ℤ) + 1 = ((nlog2 den + 1 : ℕ) : ℤ) by push_cast; ring,
      two_zpow_natCast]
    exact_mod_cast hd2
  unfold ratExp
  dsimp only
  split
  next hsh =>
    have hlow : (2 : ℚ) ^ ((nlog2 num : ℤ) - nlog2 den) ≤ (num : ℚ) / den := by
      rw [le_div_iff hden0, mul_comm]
      exact (shiftLe_iff den _ num).mp hsh
    have hup : (num : ℚ) / den < 2 ^ ((nlog2 num : ℤ) - nlog2 den + 1) := by
      rw [div_lt_iff hden0]
      calc (num : ℚ) < 2 ^ ((nlog2 num : ℤ) + 1) := hq2
        _ = 2 ^ ((nlog2 num : ℤ) - nlog2 den + 1) * 2 ^ (nlog2 den : ℤ) := by
            rw [← zpow_add₀ (two_ne_zero)]; ring_nf
        _ ≤ 2 ^ ((nlog2 num : ℤ) - nlog2 den + 1) * den :=
            mul_le_mul_of_nonneg_left hq3 (le_of_lt (two_zpow_pos _))
    constructor
    · rw [zpow_add₀ (two_ne_zero)]
      exact mul_le_mul_of_nonneg_right hlow (le_of_lt (two_zpow_pos e))
    · rw [show (nlog2 num : ℤ) - nlog2 den + e + 1
          = ((nlog2 num : ℤ) - nlog2 den + 1) + e by ring, zpow_add₀ (two_ne_zero)]
      exact mul_lt_mul_of_pos_right hup (two_zpow_pos e)
  next hsh =>
    have hns : ¬ ((den : ℚ) * 2 ^ ((nlog2 num : ℤ) - nlog2 den) ≤ num) := by
      intro hcon
      exact hsh ((shiftLe_iff den _ num).mpr hcon)
    push_neg at hns
    have hup : (num : ℚ) / den < 2 ^ ((nlog2 num : ℤ) - nlog2 den) := by
      rw [div_lt_iff hden0, mul_comm]
      exact hns
    have hlow : (2 : ℚ) ^ ((nlog2 num : ℤ) - nlog2 den - 1) ≤ (num : ℚ) / den := by
      rw [le_div_iff hden0]
      calc (2 : ℚ) ^ ((nlog2 num : ℤ) - nlog2 den - 1) * den
          ≤ 2 ^ ((nlog2 num : ℤ) - nlog2 den - 1) * 2 ^ ((nlog2 den : ℤ) + 1) :=
            mul_le_mul_of_nonneg_left (le_of_lt hq4) (le_of_lt (two_zpow_pos _))
        _ = 2 ^ (nlog2 num : ℤ) := by rw [← zpow_add₀ (two_ne_zero)]; ring_nf
        _ ≤ num := hq1
    constructor
    · rw [zpow_add₀ (two_ne_zero)]
      exact mul_le_mul_of_nonneg_right hlow (le_of_lt (two_zpow_pos e))
    · rw [show (nlog2 num : ℤ) - nlog2 den - 1 + e + 1
          = ((nlog2 num : ℤ) - nlog2 den) + e by ring, zpow_add₀ (two_ne_zero)]
      exact mul_lt_mul_of_pos_right hup (two_zpow_pos e)

theorem roundHE_exact {a b N : ℕ} (hb : 0 < b) (h : a = N * b) : roundHE a b = N := by
  subst h
  unfold roundHE
  rw [Nat.mul_div_cancel _ hb, Nat.mul_mod_left]
  simp [hb]

theorem roundHE_le {a b M : ℕ} (hb : 0 < b) (h : a < M * b) : roundHE a b ≤ M := by
  have hd : a / b < M := (Nat.div_lt_iff_lt_mul hb).mpr h
  unfold roundHE
  dsimp only
  split
  · omega
  · split
    · omega
    · split <;> omega

theorem roundPos_eq (prec emin : ℤ) (num den : ℕ) (e : ℤ) (h : num ≠ 0) :
    roundPos prec emin num den e =
      ⟨(if 0 ≤ e - max (ratExp num den e - (prec - 1)) (emin - (prec - 1))
         then roundHE
           (num * 2 ^ (e - max (ratExp num den e - (prec - 1)) (emin - (prec - 1))).toNat) den
         else roundHE num
           (den * 2 ^ (-(e - max (ratExp num den e - (prec - 1)) (emin - (prec - 1)))).toNat)),
       max (ratExp num den e - (prec - 1)) (emin - (prec - 1))⟩ := by
  unfold roundPos
  rw [if_neg h]

theorem cast_pow_toNat {t : ℤ} (ht : 0 ≤ t) : ((2 ^ t.toNat : ℕ) : ℚ) = 2 ^ t := by
  rw [← two_zpow_natCast, Int.toNat_of_nonneg ht]

theorem qpow_toNat {t : ℤ} (ht : 0 ≤ t) : (2 : ℚ) ^ t.toNat = (2 : ℚ) ^ t := by
  rw [← zpow_natCast, Int.toNat_of_nonneg ht]

theorem roundPos_exact (prec emin : ℤ) (num den : ℕ) (e : ℤ)
    (hprec : 1 ≤ prec) (hnum : 0 < num) (hden : 0 < den)
    (hrep : FRepr prec emin ((num : ℚ) / den * 2 ^ e)) :
    ((roundPos prec emin num den e).m : ℚ) * 2 ^ (roundPos prec emin num den e).e
        = (num : ℚ) / den * 2 ^ e ∧
    ((roundPos prec emin num den e).m : ℚ) < 2 ^ prec ∧
    emin - (prec - 1) ≤ (roundPos prec emin num den e).e := by
  obtain ⟨k, t, hq, hk, ht⟩ := hrep
  have hden0 : (0 : ℚ) < den := by exact_mod_cast hden
  have hnum0 : (0 : ℚ) < num := by exact_mod_cast hnum
  have hq0 : (0 : ℚ) < (num : ℚ) / den * 2 ^ e := mul_pos (div_pos hnum0 hden0) (two_zpow_pos e)
  obtain ⟨hE1, hE2⟩ := ratExp_bounds num den e (by omega) (by omega)
  rw [roundPos_eq _ _ _ _ _ (by omega)]
  set E := ratExp num den e with hEdef
  set u := max (E - (prec - 1)) (emin - (prec - 1)) with hudef
  have hu1 : E - (prec - 1) ≤ u := le_max_left _ _
  have hu2 : emin - (prec - 1) ≤ u := le_max_right _ _
  have hut : u ≤ t := by
    have h1 : (num : ℚ) / den * 2 ^ e < 2 ^ (prec + t) := by
      rw [← hq, zpow_add₀ (two_ne_zero)]
      exact mul_lt_mul_of_pos_right hk (two_zpow_pos t)
    have h3 : E < prec + t := two_zpow_lt_iff.mp (lt_of_le_of_lt hE1 h1)
    omega
  have htu : (0 : ℤ) ≤ t - u := by omega
  set N : ℕ := k * 2 ^ (t - u).toNat with hNdef
  have hNval : (N : ℚ) = (k : ℚ) * 2 ^ (t - u) := by
    rw [hNdef, Nat.cast_mul, cast_pow_toNat htu]
  have hNq : (N : ℚ) * 2 ^ u = (num : ℚ) / den * 2 ^ e := by
    rw [hNval, mul_assoc, ← zpow_add₀ (two_ne_zero), sub_add_cancel, hq]
  have hscaled : (num : ℚ) / den * 2 ^ (e - u) = N := by
    have h1 : (num : ℚ) / den * 2 ^ (e - u) = ((num : ℚ) / den * 2 ^ e) / 2 ^ u := by
      rw [zpow_sub₀ (two_ne_zero)]; ring
    rw [h1, ← hNq, mul_div_cancel_right₀ _ (two_zpow_ne_zero u)]
  have hmant :
      (if 0 ≤ e - u then roundHE (num * 2 ^ (e - u).toNat) den
       else roundHE num (den * 2 ^ (-(e - u)).toNat)) = N := by
    by_cases hs : 0 ≤ e - u
    · rw [if_pos hs]
      refine roundHE_exact hden ?_
      have hc : ((num * 2 ^ (e - u).toNat : ℕ) : ℚ) = ((N * den : ℕ) : ℚ) := by
        rw [Nat.cast_mul, Nat.cast_mul, cast_pow_toNat hs]
        calc (num : ℚ) * 2 ^ (e - u) = ((num : ℚ) / den * 2 ^ (e - u)) * den := by
              field_simp
          _ = (N : ℚ) * den := by rw [hscaled]
      exact_mod_cast hc
    · rw [if_neg hs]
      refine roundHE_exact (by positivity) ?_
      have hs' : (0 : ℤ) ≤ -(e - u) := by omega
      have h2 : (2 : ℚ) ^ (e - u) * 2 ^ (-(e - u)) = 1 := by
        rw [← zpow_add₀ (two_ne_zero), add_neg_cancel, zpow_zero]
      have hstep : (num : ℚ) / den * 2 ^ (e - u) * ((den : ℚ) * 2 ^ (-(e - u)))
          = (num : ℚ) := by
        calc (num : ℚ) / den * 2 ^ (e - u) * ((den : ℚ) * 2 ^ (-(e - u)))
            = (num : ℚ) / den * (den : ℚ) * (2 ^ (e - u) * 2 ^ (-(e - u))) := by ring
          _ = (num : ℚ) / den * (den : ℚ) * 1 := by rw [h2]
          _ = (num : ℚ) := by rw [mul_one, div_mul_cancel₀ _ (ne_of_gt hden0)]
      have hc : ((num : ℕ) : ℚ) = (N : ℚ) * ((den : ℚ) * ((2 ^ (-(e - u)).toNat : ℕ) : ℚ)) := by
        rw [cast_pow_toNat hs', ← hscaled, hstep]
      exact_mod_cast hc
  rw [hmant]
  refine ⟨hNq, ?_, hu2⟩
  have hlt : (N : ℚ) * 2 ^ u < 2 ^ prec * 2 ^ u := by
    rw [hNq, ← zpow_add₀ (two_ne_zero)]
    exact lt_of_lt_of_le hE2 (two_zpow_le_iff.mpr (by omega))
  exact (mul_lt_mul_right (two_zpow_pos u)).mp hlt

theorem roundPos_m_le (prec emin : ℤ) (num den : ℕ) (e : ℤ)
    (hprec : 1 ≤ prec) (hemin : emin ≤ 0) (hden : 0 < den) :
    (roundPos prec emin num den e).m ≤ 2 ^ prec.toNat ∧
    emin - (prec - 1) ≤ (roundPos prec emin num den e).e := by
  rcases Nat.eq_zero_or_pos num with rfl | hnum
  · unfold roundPos
    rw [if_pos rfl]
    exact ⟨by simp, by show emin - (prec - 1) ≤ 0; omega⟩
  · have hden0 : (0 : ℚ) < den := by exact_mod_cast hden
    have hnum0 : (0 : ℚ) < num := by exact_mod_cast hnum
    obtain ⟨hE1, hE2⟩ := ratExp_bounds num den e (by omega) (by omega)
    rw [roundPos_eq _ _ _ _ _ (by omega)]
    set E := ratExp num den e with hEdef
    set u := max (E - (prec - 1)) (emin - (prec - 1)) with hudef
    refine ⟨?_, le_max_right _ _⟩
    have hqu : (num : ℚ) / den * 2 ^ e < 2 ^ (prec + u) := by
      refine lt_of_lt_of_le hE2 (two_zpow_le_iff.mpr ?_)
      have := le_max_left (E - (prec - 1)) (emin - (prec - 1))
      omega
    have hcast : ((2 ^ prec.toNat : ℕ) : ℚ) = 2 ^ prec := cast_pow_toNat (by omega)
    by_cases hs : 0 ≤ e - u
    · rw [if_pos hs]
      refine roundHE_le hden ?_
      have hc : ((num * 2 ^ (e - u).toNat : ℕ) : ℚ) < ((2 ^ prec.toNat * den : ℕ) : ℚ) := by
        rw [Nat.cast_mul, Nat.cast_mul, cast_pow_toNat hs, hcast]
        have h1 : (num : ℚ) * 2 ^ (e - u) = ((num : ℚ) / den * 2 ^ e) * 2 ^ (-(u : ℤ)) * den := by
          rw [zpow_sub₀ (two_ne_zero), zpow_neg]
          field_simp
          ring
        rw [h1]
        have h2 : ((num : ℚ) / den * 2 ^ e) * 2 ^ (-(u : ℤ)) < 2 ^ prec := by
          have := mul_lt_mul_of_pos_right hqu (two_zpow_pos (-u))
          rw [← zpow_add₀ (two_ne_zero) (prec + u) (-u)] at this
          simpa using this
        exact mul_lt_mul_of_pos_right h2 hden0
      exact_mod_cast hc
    · rw [if_neg hs]
      refine roundHE_le (by positivity) ?_
      have hs' : (0 : ℤ) ≤ -(e - u) := by omega
      have hc : ((num : ℕ) : ℚ) < ((2 ^ prec.toNat * (den * 2 ^ (-(e - u)).toNat) : ℕ) : ℚ) := by
        rw [Nat.cast_mul, Nat.cast_mul, cast_pow_toNat hs', hcast]
        have h1 : (num : ℚ) = ((num : ℚ) / den * 2 ^ e) * 2 ^ (-(e : ℤ)) * den := by
          rw [zpow_neg]
          field_simp
          ring
        rw [h1]
        have h2 : ((num : ℚ) / den * 2 ^ e) * 2 ^ (-(e : ℤ)) < 2 ^ prec * 2 ^ (-(e - u)) := by
          have := mul_lt_mul_of_pos_right hqu (two_zpow_pos (-e))
          rw [← zpow_add₀ (two_ne_zero) (prec + u) (-e)] at this
          refine lt_of_lt_of_le this ?_
          rw [← zpow_add₀ (two_ne_zero) prec (-(e - u))]
          exact two_zpow_le_iff.mpr (by omega)
        calc ((num : ℚ) / den * 2 ^ e) * 2 ^ (-(e : ℤ)) * den
            < (2 ^ prec * 2 ^ (-(e - u))) * den := mul_lt_mul_of_pos_right h2 hden0
          _ = 2 ^ prec * ((den : ℚ) * 2 ^ (-(e - u))) := by ring
      exact_mod_cast hc

theorem f64ofRatio_zero (neg : Bool) (den : ℕ) (e : ℤ) :
    f64ofRatio neg 0 den e = JSNum.fin neg ⟨0, 0⟩ := by
  unfold f64ofRatio roundPos
  norm_num [shiftLe]

theorem f64ofRatio_exact (neg : Bool) (num den : ℕ) (e : ℤ)
    (hnum : 0 < num) (hden : 0 < den)
    (hrep : FRepr 53 (-1022) ((num : ℚ) / den * 2 ^ e))
    (hlt : (num : ℚ) / den * 2 ^ e < 2 ^ (1024 : ℤ)) :
    ∃ d : Dyadic, f64ofRatio neg num den e = JSNum.fin neg d ∧
      (d.m : ℚ) * 2 ^ d.e = (num : ℚ) / den * 2 ^ e := by
  obtain ⟨hval, hm, he⟩ := roundPos_exact 53 (-1022) num den e (by norm_num) hnum hden hrep
  unfold f64ofRatio
  rw [if_neg ?hover]
  case hover =>
    intro hcon
    have := (shiftLe_iff 1 _ _).mp hcon
    rw [Nat.cast_one, one_mul] at this
    have h2 : (2 : ℚ) ^ (1024 : ℤ) ≤
        ((roundPos 53 (-1022) num den e).m : ℚ) * 2 ^ (roundPos 53 (-1022) num den e).e := by
      calc (2 : ℚ) ^ (1024 : ℤ)
          = 2 ^ (1024 - (roundPos 53 (-1022) num den e).e) *
              2 ^ (roundPos 53 (-1022) num den e).e := by
            rw [← zpow_add₀ (two_ne_zero)]; ring_nf
        _ ≤ ((roundPos 53 (-1022) num den e).m : ℚ) * 2 ^ (roundPos 53 (-1022) num den e).e :=
            mul_le_mul_of_nonneg_right this (le_of_lt (two_zpow_pos _))
    rw [hval] at h2
    exact absurd (lt_of_le_of_lt h2 hlt) (lt_irrefl _)
  exact ⟨_, rfl, hval⟩

theorem dyadic_pos {d : Dyadic} (h : (0 : ℚ) < (d.m : ℚ) * 2 ^ d.e) : 0 < d.m := by
  by_contra hc
  push_neg at hc
  have h0 : d.m = 0 := by omega
  rw [h0] at h
  simp at h

theorem cast_lt_two_zpow {a n : ℕ} (h : a < 2 ^ n) : (a : ℚ) < 2 ^ (n : ℤ) := by
  rw [two_zpow_natCast]
  exact_mod_cast h

theorem step_exact (neg : Bool) (num den : ℕ) (e : ℤ) (k' : ℕ) (t' : ℤ)
    (hnum : 0 < num) (hden : 0 < den)
    (hveq : (num : ℚ) / den * 2 ^ e = (k' : ℚ) * 2 ^ t')
    (hk' : (k' : ℚ) < 2 ^ (53 : ℤ)) (ht' : -1074 ≤ t')
    (hlt : (k' : ℚ) * 2 ^ t' < 2 ^ (1024 : ℤ)) :
    ∃ d : Dyadic, f64ofRatio neg num den e = JSNum.fin neg d ∧
      (d.m : ℚ) * 2 ^ d.e = (k' : ℚ) * 2 ^ t' := by
  have hrep : FRepr 53 (-1022) ((num : ℚ) / den * 2 ^ e) :=
    ⟨k', t', by rw [hveq], hk', by omega⟩
  obtain ⟨d, h1, h2⟩ := f64ofRatio_exact neg num den e hnum hden hrep (by rw [hveq]; exact hlt)
  exact ⟨d, h1, by rw [h2, hveq]⟩

theorem chain_exact (s : Bool) (d : Dyadic) (k : ℕ) (t : ℤ)
    (hval : (d.m : ℚ) * 2 ^ d.e = (k : ℚ) * 2 ^ t)
    (hk : k < 2 ^ 24) (ht : -149 ≤ t) (hq : (k : ℚ) * 2 ^ t < 2 ^ (128 : ℤ)) :
    ∃ d' : Dyadic,
      jsDiv (jsDiv (jsMul (JSNum.fin s d) (JSNum.fin false ⟨1000000, 0⟩)) 1000) 1000
        = JSNum.fin s d' ∧ (d'.m : ℚ) * 2 ^ d'.e = (k : ℚ) * 2 ^ t := by
  have hmul : jsMul (JSNum.fin s d) (JSNum.fin false ⟨1000000, 0⟩)
      = f64ofRatio (xor s false) (d.m * 1000000) 1 (d.e + 0) := rfl
  have e6 : (2 : ℚ) ^ (t + 6) = 2 ^ t * 64 := by
    rw [zpow_add₀ two_ne_zero]; norm_num
  have e3 : (2 : ℚ) ^ (t + 3) = 2 ^ t * 8 := by
    rw [zpow_add₀ two_ne_zero]; norm_num
  rcases Nat.eq_zero_or_pos k with rfl | hk0
  · have hdm : d.m = 0 := by
      have h0 : (d.m : ℚ) * 2 ^ d.e = 0 := by simpa using hval
      rcases mul_eq_zero.mp h0 with h | h
      · exact_mod_cast h
      · exact absurd h (two_zpow_ne_zero d.e)
    rw [hmul, hdm]
    rw [show (0 * 1000000 : ℕ) = 0 by norm_num, f64ofRatio_zero, Bool.xor_false]
    rw [show jsDiv (JSNum.fin s ⟨0, 0⟩) 1000 = f64ofRatio s 0 1000 0 from rfl, f64ofRatio_zero]
    rw [show jsDiv (JSNum.fin s ⟨0, 0⟩) 1000 = f64ofRatio s 0 1000 0 from rfl, f64ofRatio_zero]
    exact ⟨⟨0, 0⟩, rfl, by simp⟩
  · have hq0 : (0 : ℚ) < (k : ℚ) * 2 ^ t :=
      mul_pos (by exact_mod_cast hk0) (two_zpow_pos t)
    have hdm : 0 < d.m := dyadic_pos (by rw [hval]; exact hq0)
    have hvale : (k : ℚ) * 2 ^ t * 1000000 < 2 ^ (148 : ℤ) := by
      calc (k : ℚ) * 2 ^ t * 1000000 < 2 ^ (128 : ℤ) * 1000000 :=
            mul_lt_mul_of_pos_right hq (by norm_num)
        _ < 2 ^ (128 : ℤ) * 2 ^ (20 : ℤ) := by
            refine mul_lt_mul_of_pos_left (by norm_num) (two_zpow_pos _)
        _ = 2 ^ (148 : ℤ) := by rw [← zpow_add₀ two_ne_zero]; norm_num
    -- step 1: `* 1000000`
    obtain ⟨r1, hr1, hr1val⟩ :=
      step_exact (xor s false) (d.m * 1000000) 1 (d.e + 0) (k * 15625) (t + 6)
        (by positivity) (by norm_num)
        (by
          push_cast
          rw [add_zero, e6]
          linear_combination (1000000 : ℚ) * hval)
        (by
          refine lt_trans (cast_lt_two_zpow (a := k * 15625) (n := 38) (by omega)) ?_
          exact two_zpow_lt_iff.mpr (by norm_num))
        (by omega)
        (by
          have hident : ((k * 15625 : ℕ) : ℚ) * 2 ^ (t + 6) = (k : ℚ) * 2 ^ t * 1000000 := by
            push_cast
            rw [e6]
            ring
          rw [hident]
          exact lt_trans hvale (two_zpow_lt_iff.mpr (by norm_num)))
    have hr1m : 0 < r1.m := by
      refine dyadic_pos ?_
      rw [hr1val]
      positivity
    -- step 2: first `/ 1000`
    obtain ⟨r2, hr2, hr2val⟩ :=
      step_exact s r1.m 1000 r1.e (k * 125) (t + 3)
        hr1m (by norm_num)
        (by
          push_cast
          rw [div_mul_eq_mul_div, div_eq_iff (by norm_num : (1000 : ℚ) ≠ 0), hr1val]
          push_cast
          rw [e6, e3]
          ring)
        (by
          refine lt_trans (cast_lt_two_zpow (a := k * 125) (n := 31) (by omega)) ?_
          exact two_zpow_lt_iff.mpr (by norm_num))
        (by omega)
        (by
          have hident : ((k * 125 : ℕ) : ℚ) * 2 ^ (t + 3) = (k : ℚ) * 2 ^ t * 1000 := by
            push_cast
            rw [e3]
            ring
          rw [hident]
          calc (k : ℚ) * 2 ^ t * 1000 < (k : ℚ) * 2 ^ t * 1000000 := by
                refine mul_lt_mul_of_pos_left (by norm_num) hq0
            _ < 2 ^ (148 : ℤ) := hvale
            _ < 2 ^ (1024 : ℤ) := two_zpow_lt_iff.mpr (by norm_num))
    have hr2m : 0 < r2.m := by
      refine dyadic_pos ?_
      rw [hr2val]
      positivity
    -- step 3: second `/ 1000`
    obtain ⟨r3, hr3, hr3val⟩ :=
      step_exact s r2.m 1000 r2.e k t
        hr2m (by norm_num)
        (by
          push_cast
          rw [div_mul_eq_mul_div, div_eq_iff (by norm_num : (1000 : ℚ) ≠ 0), hr2val]
          push_cast
          rw [e3]
          ring)
        (by
          refine lt_trans (cast_lt_two_zpow hk) ?_
          exact two_zpow_lt_iff.mpr (by norm_num))
        (by omega)
        (lt_trans hq (two_zpow_lt_iff.mpr (by norm_num)))
    refine ⟨r3, ?_, hr3val⟩
    rw [hmul, hr1, Bool.xor_false]
    rw [show jsDiv (JSNum.fin s r1) 1000 = f64ofRatio s r1.m 1000 r1.e from rfl, hr2]
    rw [show jsDiv (JSNum.fin s r2) 1000 = f64ofRatio s r2.m 1000 r2.e from rfl, hr3]

theorem dyadic_exp_eq {m m' : ℕ} {e e' : ℤ} (hm : 0 < m) (hm' : 0 < m')
    (h : (m : ℚ) * 2 ^ e = (m' : ℚ) * 2 ^ e') :
    (nlog2 m : ℤ) + e = (nlog2 m' : ℤ) + e' := by
  wlog he : e' ≤ e generalizing m m' e e'
  · exact (this hm' hm h.symm (by omega)).symm
  have hk : (0 : ℤ) ≤ e - e' := by omega
  have hcast : (m' : ℚ) = (m : ℚ) * 2 ^ (e - e') := by
    have h2 : (m : ℚ) * 2 ^ (e - e') * 2 ^ e' = (m' : ℚ) * 2 ^ e' := by
      rw [mul_assoc, ← zpow_add₀ two_ne_zero, sub_add_cancel, h]
    exact (mul_right_cancel₀ (two_zpow_ne_zero e') h2).symm
  have hnat : m' = m * 2 ^ (e - e').toNat := by
    have hc : (m' : ℚ) = ((m * 2 ^ (e - e').toNat : ℕ) : ℚ) := by
      rw [Nat.cast_mul, cast_pow_toNat hk, hcast]
    exact_mod_cast hc
  rw [hnat, nlog2_mul_pow hm]
  push_cast
  rw [Int.toNat_of_nonneg hk]
  ring

theorem encodeF32_fin_eq (s : Bool) (d : Dyadic) :
    encodeF32 (JSNum.fin s d) =
      (if (roundPos 24 (-126) d.m 1 d.e).m = 0 then [(if s then 128 else 0), 0, 0, 0]
       else if shiftLe 1 (128 - (roundPos 24 (-126) d.m 1 d.e).e)
           (roundPos 24 (-126) d.m 1 d.e).m = true
       then [(if s then 255 else 127), 128, 0, 0]
       else if ((nlog2 (roundPos 24 (-126) d.m 1 d.e).m : ℤ)
           + (roundPos 24 (-126) d.m 1 d.e).e) < -126
       then packF32 s 0
         ((roundPos 24 (-126) d.m 1 d.e).m
           * 2 ^ ((roundPos 24 (-126) d.m 1 d.e).e + 149).toNat)
       else packF32 s
         ((nlog2 (roundPos 24 (-126) d.m 1 d.e).m : ℤ)
           + (roundPos 24 (-126) d.m 1 d.e).e + 127).toNat
         ((if 23 ≤ nlog2 (roundPos 24 (-126) d.m 1 d.e).m
           then (roundPos 24 (-126) d.m 1 d.e).m
             / 2 ^ (nlog2 (roundPos 24 (-126) d.m 1 d.e).m - 23)
           else (roundPos 24 (-126) d.m 1 d.e).m
             * 2 ^ (23 - nlog2 (roundPos 24 (-126) d.m 1 d.e).m)) - 8388608)) := rfl

theorem encodeF32_of_zero (s : Bool) (d : Dyadic) (h : d.m = 0) :
    encodeF32 (JSNum.fin s d) = [(if s then 128 else 0), 0, 0, 0] := by
  have hr : roundPos 24 (-126) d.m 1 d.e = ⟨0, 0⟩ := by
    unfold roundPos
    rw [if_pos h]
  rw [encodeF32_fin_eq, hr]
  rfl

theorem encodeF32_subnormal (s : Bool) (d : Dyadic) (f : ℕ)
    (hf0 : 0 < f) (hf : f < 2 ^ 23)
    (hval : (d.m : ℚ) * 2 ^ d.e = (f : ℚ) * 2 ^ (-149 : ℤ)) :
    encodeF32 (JSNum.fin s d) = packF32 s 0 f := by
  have hq0 : (0 : ℚ) < (f : ℚ) * 2 ^ (-149 : ℤ) :=
    mul_pos (by exact_mod_cast hf0) (two_zpow_pos _)
  have hdm : 0 < d.m := dyadic_pos (by rw [hval]; exact hq0)
  have hrep : FRepr 24 (-126) ((d.m : ℚ) / 1 * 2 ^ d.e) := by
    refine ⟨f, -149, ?_, ?_, by norm_num⟩
    · rw [div_one, hval]
    · exact lt_trans (cast_lt_two_zpow hf) (two_zpow_lt_iff.mpr (by norm_num))
  obtain ⟨hrval, hrm, hre⟩ :=
    roundPos_exact 24 (-126) d.m 1 d.e (by norm_num) hdm (by norm_num) hrep
  rw [Nat.cast_one, div_one] at hrval
  rw [encodeF32_fin_eq]
  set r := roundPos 24 (-126) d.m 1 d.e with hrdef
  have hrq : (r.m : ℚ) * 2 ^ r.e = (f : ℚ) * 2 ^ (-149 : ℤ) := by rw [hrval, hval]
  have hrm0 : 0 < r.m := dyadic_pos (by rw [hrq]; exact hq0)
  have hE : (nlog2 r.m : ℤ) + r.e = (nlog2 f : ℤ) + (-149) := dyadic_exp_eq hrm0 hf0 hrq
  have hlogf : nlog2 f < 23 := by
    obtain ⟨b1, b2⟩ := nlog2_bounds hf0
    rcases Nat.lt_or_ge (nlog2 f) 23 with h | h
    · exact h
    · have : (2 : ℕ) ^ 23 ≤ 2 ^ nlog2 f := Nat.pow_le_pow_right (by norm_num) h
      omega
  rw [if_neg (by omega), if_neg ?hov, if_pos (by omega)]
  case hov =>
    intro hcon
    have h1 := (shiftLe_iff 1 _ _).mp hcon
    rw [Nat.cast_one, one_mul] at h1
    have h2 : (2 : ℚ) ^ (128 : ℤ) ≤ (r.m : ℚ) * 2 ^ r.e := by
      calc (2 : ℚ) ^ (128 : ℤ) = 2 ^ (128 - r.e) * 2 ^ r.e := by
            rw [← zpow_add₀ two_ne_zero]; ring_nf
        _ ≤ (r.m : ℚ) * 2 ^ r.e := mul_le_mul_of_nonneg_right h1 (le_of_lt (two_zpow_pos _))
    rw [hrq] at h2
    have h3 : (f : ℚ) * 2 ^ (-149 : ℤ) < 2 ^ (128 : ℤ) := by
      calc (f : ℚ) * 2 ^ (-149 : ℤ) < 2 ^ (23 : ℤ) * 2 ^ (-149 : ℤ) :=
            mul_lt_mul_of_pos_right (cast_lt_two_zpow hf) (two_zpow_pos _)
        _ = 2 ^ (-126 : ℤ) := by rw [← zpow_add₀ two_ne_zero]; norm_num
        _ < 2 ^ (128 : ℤ) := two_zpow_lt_iff.mpr (by norm_num)
    exact absurd (lt_of_le_of_lt h2 h3) (lt_irrefl _)
  -- the subnormal fraction is `f`
  have hre' : (0 : ℤ) ≤ r.e + 149 := by omega
  have hfrac : r.m * 2 ^ (r.e + 149).toNat = f := by
    have hc : ((r.m * 2 ^ (r.e + 149).toNat : ℕ) : ℚ) = (f : ℚ) := by
      rw [Nat.cast_mul, cast_pow_toNat hre']
      calc (r.m : ℚ) * 2 ^ (r.e + 149) = (r.m : ℚ) * 2 ^ r.e * 2 ^ (149 : ℤ) := by
            rw [mul_assoc, ← zpow_add₀ two_ne_zero]
        _ = (f : ℚ) * 2 ^ (-149 : ℤ) * 2 ^ (149 : ℤ) := by rw [hrq]
        _ = (f : ℚ) := by
            rw [mul_assoc, ← zpow_add₀ two_ne_zero]
            norm_num
    exact_mod_cast hc
  rw [hfrac]

theorem encodeF32_normal (s : Bool) (d : Dyadic) (M : ℕ) (t : ℤ)
    (hM1 : 2 ^ 23 ≤ M) (hM2 : M < 2 ^ 24) (ht1 : -149 ≤ t) (ht2 : t ≤ 104)
    (hval : (d.m : ℚ) * 2 ^ d.e = (M : ℚ) * 2 ^ t) :
    encodeF32 (JSNum.fin s d) = packF32 s (t + 150).toNat (M - 2 ^ 23) := by
  have hM0 : 0 < M := by positivity
  have hq0 : (0 : ℚ) < (M : ℚ) * 2 ^ t :=
    mul_pos (by exact_mod_cast hM0) (two_zpow_pos _)
  have hdm : 0 < d.m := dyadic_pos (by rw [hval]; exact hq0)
  have hlogM : nlog2 M = 23 := nlog2_unique hM1 hM2
  have hqlt : (M : ℚ) * 2 ^ t < 2 ^ (128 : ℤ) := by
    calc (M : ℚ) * 2 ^ t < 2 ^ (24 : ℤ) * 2 ^ t :=
          mul_lt_mul_of_pos_right (cast_lt_two_zpow hM2) (two_zpow_pos _)
      _ = 2 ^ (24 + t) := by rw [← zpow_add₀ two_ne_zero]
      _ ≤ 2 ^ (128 : ℤ) := two_zpow_le_iff.mpr (by omega)
  have hrep : FRepr 24 (-126) ((d.m : ℚ) / 1 * 2 ^ d.e) := by
    refine ⟨M, t, ?_, ?_, by omega⟩
    · rw [div_one, hval]
    · exact cast_lt_two_zpow hM2
  obtain ⟨hrval, hrm, hre⟩ :=
    roundPos_exact 24 (-126) d.m 1 d.e (by norm_num) hdm (by norm_num) hrep
  rw [Nat.cast_one, div_one] at hrval
  rw [encodeF32_fin_eq]
  set r := roundPos 24 (-126) d.m 1 d.e with hrdef
  have hrq : (r.m : ℚ) * 2 ^ r.e = (M : ℚ) * 2 ^ t := by rw [hrval, hval]
  have hrm0 : 0 < r.m := dyadic_pos (by rw [hrq]; exact hq0)
  have hE : (nlog2 r.m : ℤ) + r.e = 23 + t := by
    have := dyadic_exp_eq hrm0 hM0 hrq
    rw [hlogM] at this
    omega
  rw [if_neg (by omega), if_neg ?hov, if_neg (by omega)]
  case hov =>
    intro hcon
    have h1 := (shiftLe_iff 1 _ _).mp hcon
    rw [Nat.cast_one, one_mul] at h1
    have h2 : (2 : ℚ) ^ (128 : ℤ) ≤ (r.m : ℚ) * 2 ^ r.e := by
      calc (2 : ℚ) ^ (128 : ℤ) = 2 ^ (128 - r.e) * 2 ^ r.e := by
            rw [← zpow_add₀ two_ne_zero]; ring_nf
        _ ≤ (r.m : ℚ) * 2 ^ r.e := mul_le_mul_of_nonneg_right h1 (le_of_lt (two_zpow_pos _))
    rw [hrq] at h2
    exact absurd (lt_of_le_of_lt h2 hqlt) (lt_irrefl _)
  -- the normalised mantissa is `M` and the biased exponent is `t + 150`
  have hexp : ((nlog2 r.m : ℤ) + r.e + 127).toNat = (t + 150).toNat := by rw [hE]; ring_nf
  have hMeq :
      (if 23 ≤ nlog2 r.m then r.m / 2 ^ (nlog2 r.m - 23) else r.m * 2 ^ (23 - nlog2 r.m)) = M := by
    have hshift : (r.m : ℚ) = (M : ℚ) * 2 ^ ((nlog2 r.m : ℤ) - 23) := by
      have h2 : (M : ℚ) * 2 ^ ((nlog2 r.m : ℤ) - 23) * 2 ^ r.e = (r.m : ℚ) * 2 ^ r.e := by
        rw [mul_assoc, ← zpow_add₀ two_ne_zero, hrq]
        congr 1
        have : (nlog2 r.m : ℤ) - 23 + r.e = t := by omega
        rw [this]
      exact (mul_right_cancel₀ (two_zpow_ne_zero r.e) h2).symm
    by_cases hL : 23 ≤ nlog2 r.m
    · rw [if_pos hL]
      have hk : (0 : ℤ) ≤ (nlog2 r.m : ℤ) - 23 := by omega
      have hnat : r.m = M * 2 ^ (nlog2 r.m - 23) := by
        have hc : (r.m : ℚ) = ((M * 2 ^ ((nlog2 r.m : ℤ) - 23).toNat : ℕ) : ℚ) := by
          rw [Nat.cast_mul, cast_pow_toNat hk, hshift]

        have h2 : r.m = M * 2 ^ ((nlog2 r.m : ℤ) - 23).toNat := by exact_mod_cast hc
        rwa [show ((nlog2 r.m : ℤ) - 23).toNat = nlog2 r.m - 23 by omega] at h2
      nth_rewrite 1 [hnat]
      exact Nat.mul_div_cancel _ (by positivity : 0 < 2 ^ (nlog2 r.m - 23))
    · rw [if_neg hL]
      push_neg at hL
      have hk : (0 : ℤ) ≤ 23 - (nlog2 r.m : ℤ) := by omega
      have hc : ((r.m * 2 ^ (23 - nlog2 r.m) : ℕ) : ℚ) = (M : ℚ) := by
        rw [Nat.cast_mul, show ((2 ^ (23 - nlog2 r.m) : ℕ) : ℚ) = 2 ^ ((23 : ℤ) - nlog2 r.m) by
          rw [← two_zpow_natCast]
          congr 1
          omega, hshift, mul_assoc, ← zpow_add₀ two_ne_zero]
        norm_num
      exact_mod_cast hc
  rw [hexp, hMeq]
  norm_num

theorem decodeF32_packF32 (s : Bool) (e8 f : ℕ) (he : e8 ≤ 254) (hf : f < 2 ^ 23) :
    decodeF32L (packF32 s e8 f) =
      if e8 = 0 then JSNum.fin s ⟨f, -149⟩
      else JSNum.fin s ⟨8388608 + f, (e8 : ℤ) - 150⟩ := by
  show decodeF32 ((if s then 128 else 0) + e8 / 2) (e8 % 2 * 128 + f / 65536)
      (f / 256 % 256) (f % 256) = _
  unfold decodeF32
  dsimp only
  have hsgn : decide (128 ≤ (if s then 128 else 0) + e8 / 2) = s := by
    cases s <;> simp <;> omega
  have hb0mod : ((if s then 128 else 0) + e8 / 2) % 128 = e8 / 2 := by
    cases s <;> simp <;> omega
  have hb1div : (e8 % 2 * 128 + f / 65536) / 128 = e8 % 2 := by omega
  have hb1mod : (e8 % 2 * 128 + f / 65536) % 128 = f / 65536 := by omega
  rw [hsgn, hb0mod, hb1div, hb1mod]
  rw [show e8 / 2 * 2 + e8 % 2 = e8 by omega]
  rw [show f / 65536 * 65536 + f / 256 % 256 * 256 + f % 256 = f by omega]
  rw [if_neg (by omega : ¬ e8 = 255)]

theorem encodeF32_fin_shape (s : Bool) (d : Dyadic) :
    encodeF32 (JSNum.fin s d) = [(if s then 128 else 0), 0, 0, 0] ∨
    encodeF32 (JSNum.fin s d) = [(if s then 255 else 127), 128, 0, 0] ∨
    (∃ f, 0 < f ∧ f < 2 ^ 23 ∧ encodeF32 (JSNum.fin s d) = packF32 s 0 f) ∨
    (∃ e8 f, 1 ≤ e8 ∧ e8 ≤ 254 ∧ f < 2 ^ 23 ∧
      encodeF32 (JSNum.fin s d) = packF32 s e8 f) := by
  rw [encodeF32_fin_eq]
  obtain ⟨hm24, hre⟩ :=
    roundPos_m_le 24 (-126) d.m 1 d.e (by norm_num) (by norm_num) (by norm_num)
  set r := roundPos 24 (-126) d.m 1 d.e with hrdef
  by_cases h0 : r.m = 0
  · left; rw [if_pos h0]
  rw [if_neg h0]
  by_cases hov : shiftLe 1 (128 - r.e) r.m = true
  · right; left; rw [if_pos hov]
  rw [if_neg hov]
  have hrm0 : 0 < r.m := by omega
  obtain ⟨hL1, hL2⟩ := nlog2_bounds hrm0
  have hEub : (nlog2 r.m : ℤ) + r.e ≤ 127 := by
    by_contra hcon
    push_neg at hcon
    apply hov
    rw [shiftLe_iff, Nat.cast_one, one_mul]
    have h1 : (2 : ℚ) ^ ((128 : ℤ) - r.e) ≤ 2 ^ ((nlog2 r.m : ℤ)) :=
      two_zpow_le_iff.mpr (by omega)
    refine le_trans h1 ?_
    rw [two_zpow_natCast]
    exact_mod_cast hL1
  by_cases hE : (nlog2 r.m : ℤ) + r.e < -126
  · right; right; left
    rw [if_pos hE]
    refine ⟨r.m * 2 ^ (r.e + 149).toNat, by positivity, ?_, rfl⟩
    have hre9 : (0 : ℤ) ≤ r.e + 149 := by omega
    have hc : ((r.m * 2 ^ (r.e + 149).toNat : ℕ) : ℚ) < 2 ^ (23 : ℤ) := by
      rw [Nat.cast_mul, cast_pow_toNat hre9]
      have h1 : (r.m : ℚ) < 2 ^ ((nlog2 r.m : ℤ) + 1) := by
        rw [show (nlog2 r.m : ℤ) + 1 = ((nlog2 r.m + 1 : ℕ) : ℤ) by push_cast; ring,
          two_zpow_natCast]
        exact_mod_cast hL2
      calc (r.m : ℚ) * 2 ^ (r.e + 149) < 2 ^ ((nlog2 r.m : ℤ) + 1) * 2 ^ (r.e + 149) :=
            mul_lt_mul_of_pos_right h1 (two_zpow_pos _)
        _ = 2 ^ ((nlog2 r.m : ℤ) + 1 + (r.e + 149)) := by rw [← zpow_add₀ two_ne_zero]
        _ ≤ 2 ^ (23 : ℤ) := two_zpow_le_iff.mpr (by omega)
    have h23 : (2 : ℚ) ^ (23 : ℤ) = ((2 ^ 23 : ℕ) : ℚ) := by norm_num
    rw [h23] at hc
    exact_mod_cast hc
  · right; right; right
    rw [if_neg hE]
    push_neg at hE
    have hM24 : (if 23 ≤ nlog2 r.m then r.m / 2 ^ (nlog2 r.m - 23)
        else r.m * 2 ^ (23 - nlog2 r.m)) < 2 ^ 24 := by
      by_cases hL : 23 ≤ nlog2 r.m
      · rw [if_pos hL]
        rw [Nat.div_lt_iff_lt_mul (by positivity)]
        calc r.m < 2 ^ (nlog2 r.m + 1) := hL2
          _ = 2 ^ 24 * 2 ^ (nlog2 r.m - 23) := by rw [← pow_add]; congr 1; omega
      · rw [if_neg hL]
        push_neg at hL
        calc r.m * 2 ^ (23 - nlog2 r.m) < 2 ^ (nlog2 r.m + 1) * 2 ^ (23 - nlog2 r.m) :=
              mul_lt_mul_of_pos_right hL2 (by positivity)
          _ = 2 ^ 24 := by rw [← pow_add]; congr 1; omega
    exact ⟨((nlog2 r.m : ℤ) + r.e + 127).toNat, _, by omega, by omega, by omega, rfl⟩

theorem reencode_chain (x : JSNum) :
    encodeF32 (jsDiv (jsDiv (jsMul (decodeF32L (encodeF32 x))
      (JSNum.fin false ⟨1000000, 0⟩)) 1000) 1000) = encodeF32 x := by
  cases x with
  | nan => decide
  | inf s => cases s <;> decide
  | fin s d =>
    rcases encodeF32_fin_shape s d with hsh | hsh | ⟨f, hf0, hff, hsh⟩ |
      ⟨e8, f, he1, he2, hff, hsh⟩
    · rw [hsh]; cases s <;> decide
    · rw [hsh]; cases s <;> decide
    · rw [hsh]
      have hdec := decodeF32_packF32 s 0 f (by norm_num) hff
      rw [if_pos rfl] at hdec
      rw [hdec]
      obtain ⟨d', hchain, hval'⟩ := chain_exact s ⟨f, -149⟩ f (-149)
        rfl (by omega) (by norm_num)
        (by
          calc (f : ℚ) * 2 ^ (-149 : ℤ) < 2 ^ (23 : ℤ) * 2 ^ (-149 : ℤ) :=
                mul_lt_mul_of_pos_right (cast_lt_two_zpow hff) (two_zpow_pos _)
            _ = 2 ^ (-126 : ℤ) := by rw [← zpow_add₀ two_ne_zero]; norm_num
            _ < 2 ^ (128 : ℤ) := two_zpow_lt_iff.mpr (by norm_num))
      rw [hchain]
      exact encodeF32_subnormal s d' f hf0 hff hval'
    · rw [hsh]
      have hdec := decodeF32_packF32 s e8 f he2 hff
      rw [if_neg (by omega)] at hdec
      rw [hdec]
      obtain ⟨d', hchain, hval'⟩ := chain_exact s ⟨8388608 + f, (e8 : ℤ) - 150⟩
        (8388608 + f) ((e8 : ℤ) - 150)
        rfl (by omega) (by omega)
        (by
          calc ((8388608 + f : ℕ) : ℚ) * 2 ^ ((e8 : ℤ) - 150)
              < 2 ^ (24 : ℤ) * 2 ^ ((e8 : ℤ) - 150) :=
                mul_lt_mul_of_pos_right
                  (cast_lt_two_zpow (a := 8388608 + f) (n := 24) (by omega)) (two_zpow_pos _)
            _ = 2 ^ ((24 : ℤ) + (e8 - 150)) := by rw [← zpow_add₀ two_ne_zero]
            _ ≤ 2 ^ (128 : ℤ) := two_zpow_le_iff.mpr (by omega))
      rw [hchain]
      have henc := encodeF32_normal s d' (8388608 + f) ((e8 : ℤ) - 150)
        (by norm_num) (by omega) (by omega) (by omega) hval'
      rw [henc, show ((e8 : ℤ) - 150 + 150).toNat = e8 by omega,
        show 8388608 + f - 2 ^ 23 = f by omega]

/-! ## Scan invariance: rewriting a float payload does not change the
scan's structure, only the decoded value of that one element. -/

theorem getUint32_congr (l l' : List ℕ) (o : ℕ)
    (h : ∀ j, j < 4 → l'[o + j]? = l[o + j]?) : getUint32 l' o = getUint32 l o := by
  unfold getUint32
  have h0 : l'[o]? = l[o]? := by simpa using h 0 (by norm_num)
  have h1 := h 1 (by norm_num)
  have h2 := h 2 (by norm_num)
  have h3 := h 3 (by norm_num)
  rw [h0, h1, h2, h3]

theorem getFloat32_congr (l l' : List ℕ) (o : ℕ)
    (h : ∀ j, j < 4 → l'[o + j]? = l[o + j]?) : getFloat32 l' o = getFloat32 l o := by
  unfold getFloat32
  have h0 : l'[o]? = l[o]? := by simpa using h 0 (by norm_num)
  have h1 := h 1 (by norm_num)
  have h2 := h 2 (by norm_num)
  have h3 := h 3 (by norm_num)
  rw [h0, h1, h2, h3]

theorem readEbmlHeader_congr (l l' : List ℕ) (o : ℕ)
    (h : ∀ j, j < 5 → l'[o + j]? = l[o + j]?) :
    readEbmlHeader l' o = readEbmlHeader l o := by
  unfold readEbmlHeader getUint8
  rw [getUint32_congr l l' o (fun j hj => h j (by omega)), h 4 (by norm_num)]

theorem getFloat32_isSome (l : List ℕ) (o : ℕ) (h : o + 4 ≤ l.length) :
    ∃ y, getFloat32 l o = some y := by
  unfold getFloat32
  rw [List.getElem?_eq_getElem (by omega), List.getElem?_eq_getElem (by omega),
    List.getElem?_eq_getElem (by omega), List.getElem?_eq_getElem (by omega)]
  exact ⟨_, rfl⟩

theorem decodeFrom_congr_ge (l l' : List ℕ) (hlen : l'.length = l.length) :
    ∀ (fuel o : ℕ), (∀ i, o ≤ i → l'[i]? = l[i]?) →
      decodeFrom l' fuel o = decodeFrom l fuel o := by
  intro fuel
  induction fuel with
  | zero => intro o _; rfl
  | succ fuel ih =>
    intro o h
    unfold decodeFrom
    rw [hlen]
    by_cases ho : o < l.length
    · rw [if_pos ho, if_pos ho,
        readEbmlHeader_congr l l' o (fun j _ => h (o + j) (by omega))]
      cases hhd : readEbmlHeader l o with
      | none => rfl
      | some hd =>
        dsimp only
        rw [getFloat32_congr l l' (o + hd.headerLength) (fun j _ => h _ (by omega)),
          getUint32_congr l l' (o + hd.headerLength) (fun j _ => h _ (by omega)),
          ih (o + hd.headerLength + hd.size) (fun i hi => h i (by omega))]
    · rw [if_neg ho, if_neg ho]

theorem decodeFrom_pairwise (l : List ℕ) : ∀ (fuel o : ℕ) (es : List Element),
    decodeFrom l fuel o = some es →
    es.Pairwise (fun x y => x.dataOffset < y.dataOffset) := by
  intro fuel
  induction fuel with
  | zero => intro o es h; exact absurd h (by simp [decodeFrom])
  | succ fuel ih =>
    intro o es h
    simp only [decodeFrom] at h
    split at h
    case isFalse ho =>
      obtain rfl : [] = es := by simpa using h
      simp
    case isTrue ho =>
      split at h
      next => exact absurd h (by simp)
      next hd hhd =>
        split at h
        next => exact absurd h (by simp)
        next v hv =>
          split at h
          next => exact absurd h (by simp)
          next rest hrec =>
            obtain ⟨hsz, hhl⟩ := readEbmlHeader_shape l o hd hhd
            obtain rfl :
                Element.mk (getTagName hd.id) (getTagType hd.id) o (o + hd.headerLength)
                  hd.size v [] :: rest = es := by simpa using h
            refine List.pairwise_cons.mpr ⟨fun y hy => ?_, ih _ _ hrec⟩
            obtain ⟨h1, -, h3, -⟩ := decodeFrom_mem l fuel _ rest hrec y hy
            show o + hd.headerLength < y.dataOffset
            omega

theorem decodeFrom_upd (l l' : List ℕ) (a : ℕ)
    (hlen : l'.length = l.length)
    (hag : ∀ i, i < a ∨ a + 4 ≤ i → l'[i]? = l[i]?)
    (hb : a + 4 ≤ l.length) :
    ∀ (fuel o : ℕ) (es : List Element), decodeFrom l fuel o = some es →
      (∃ e ∈ es, e.type = 'f' ∧ e.dataOffset = a ∧ 4 ≤ e.dataSize) →
      decodeFrom l' fuel o = some (es.map (fun e =>
        if e.dataOffset = a then e.setValue (getFloat32 l' a) else e)) := by
  intro fuel
  induction fuel with
  | zero => intro o es h _; exact absurd h (by simp [decodeFrom])
  | succ fuel ih =>
    intro o es h hex
    simp only [decodeFrom] at h ⊢
    rw [hlen]
    by_cases ho : o < l.length
    case neg =>
      rw [if_neg ho] at h ⊢
      obtain rfl : [] = es := by simpa using h
      obtain ⟨e, he, -⟩ := hex
      exact absurd he (by simp)
    case pos =>
      rw [if_pos ho] at h ⊢
      cases hhd : readEbmlHeader l o with
      | none => rw [hhd] at h; exact absurd h (by simp)
      | some hd =>
        rw [hhd] at h
        obtain ⟨hszmax, hhl⟩ := readEbmlHeader_shape l o hd hhd
        dsimp only at h
        split at h
        next => exact absurd h (by simp)
        next v hv =>
          split at h
          next => exact absurd h (by simp)
          next rest hrec =>
            obtain rfl :
                Element.mk (getTagName hd.id) (getTagType hd.id) o (o + hd.headerLength)
                  hd.size v [] :: rest = es := by simpa using h
            obtain ⟨e, he, het, heda, hesz⟩ := hex
            by_cases hda : o + hd.headerLength = a
            · -- the head element owns the rewritten payload
              have hehead : e = Element.mk (getTagName hd.id) (getTagType hd.id) o
                  (o + hd.headerLength) hd.size v [] := by
                rcases List.mem_cons.mp he with h' | h'
                · exact h'
                · obtain ⟨h1, -, h3, -⟩ := decodeFrom_mem l fuel _ rest hrec e h'
                  omega
              have htype : getTagType hd.id = 'f' := by
                have := het
                rw [hehead] at this
                exact this
              have hsz4 : 4 ≤ hd.size := by
                have := hesz
                rw [hehead] at this
                exact this
              have hhdr : readEbmlHeader l' o = some hd := by
                rw [readEbmlHeader_congr l l' o (fun j hj => hag (o + j) (by omega))]
                exact hhd
              rw [hhdr]
              dsimp only
              rw [if_pos htype] at hv ⊢
              rw [hda] at hv ⊢
              obtain ⟨y, hy⟩ := getFloat32_isSome l' a (by omega)
              have hvmap : (getFloat32 l' a).map some = some (some y) := by rw [hy]; rfl
              rw [hvmap]
              dsimp only
              -- the recursive scan reads only indices ≥ a + hd.size ≥ a + 4
              rw [hda] at hrec
              have hrec' : decodeFrom l' fuel (a + hd.size) = some rest := by
                rw [decodeFrom_congr_ge l l' hlen fuel _ (fun i hi => hag i (by omega))]
                exact hrec
              rw [hrec']
              dsimp only
              -- the mapped tail is unchanged
              have hrest : rest.map (fun e =>
                  if e.dataOffset = a then e.setValue (getFloat32 l' a) else e) = rest := by
                have hcg : ∀ x ∈ rest,
                    (if x.dataOffset = a then x.setValue (getFloat32 l' a) else x) = x := by
                  intro x hx
                  obtain ⟨h1, -, h3, -⟩ := decodeFrom_mem l fuel _ rest hrec x hx
                  rw [if_neg (by omega)]
                rw [List.map_congr_left hcg]
                simp
              rw [List.map_cons, hrest, if_pos (show (Element.mk (getTagName hd.id)
                (getTagType hd.id) o a hd.size v []).dataOffset = a from rfl)]
              -- identify the new head
              have hset : (Element.mk (getTagName hd.id) (getTagType hd.id) o
                  a hd.size v []).setValue (getFloat32 l' a)
                  = Element.mk (getTagName hd.id) (getTagType hd.id) o
                  a hd.size (some y) [] := by
                rw [hy]; rfl
              rw [hset]
            · -- the head element is untouched; the payload is further right
              have hemem : e ∈ rest := by
                rcases List.mem_cons.mp he with h' | h'
                · exfalso
                  apply hda
                  rw [h'] at heda
                  exact heda
                · exact h'
              obtain ⟨h1, -, h3, -⟩ := decodeFrom_mem l fuel _ rest hrec e hemem
              have ha10 : o + 10 + hd.size ≤ a := by omega
              have hhdr : readEbmlHeader l' o = some hd := by
                rw [readEbmlHeader_congr l l' o (fun j hj => hag (o + j) (by omega))]
                exact hhd
              rw [hhdr]
              dsimp only
              have hvals : (if getTagType hd.id = 'f'
                    then (getFloat32 l' (o + hd.headerLength)).map some
                  else if getTagType hd.id = 'u'
                    then (getUint32 l' (o + hd.headerLength)).map
                      (fun n => some (JSNum.fin false ⟨n, 0⟩))
                  else some none)
                  = (if getTagType hd.id = 'f'
                    then (getFloat32 l (o + hd.headerLength)).map some
                  else if getTagType hd.id = 'u'
                    then (getUint32 l (o + hd.headerLength)).map
                      (fun n => some (JSNum.fin false ⟨n, 0⟩))
                  else some none) := by
                rw [getFloat32_congr l l' (o + hd.headerLength)
                    (fun j hj => hag _ (by omega)),
                  getUint32_congr l l' (o + hd.headerLength)
                    (fun j hj => hag _ (by omega))]
              rw [hvals, hv]
              dsimp only
              rw [ih (o + hd.headerLength + hd.size) rest hrec ⟨e, hemem, het, heda, hesz⟩]
              dsimp only
              rw [List.map_cons, if_neg (by simpa using hda)]

/-! ## Plumbing: `findName`, `replaceFirst`, `stitch`, `locate` -/

theorem findName_name {es : List Element} {n : String} {e : Element}
    (h : findName es n = some e) : e.name = n := by
  unfold findName at h
  exact eq_of_beq (List.find?_some (p := fun e : Element => e.name == n) h)

theorem findName_mem {es : List Element} {n : String} {e : Element}
    (h : findName es n = some e) : e ∈ es := by
  unfold findName at h
  exact List.mem_of_find?_eq_some h

theorem Element.setChildren_children (e : Element) (c : List Element) :
    (e.setChildren c).children = c := by cases e; rfl

theorem Element.setChildren_name (e : Element) (c : List Element) :
    (e.setChildren c).name = e.name := by cases e; rfl

theorem Element.setValue_name (e : Element) (v : Option JSNum) :
    (e.setValue v).name = e.name := by cases e; rfl

theorem Element.setValue_children (e : Element) (v : Option JSNum) :
    (e.setValue v).children = e.children := by cases e; rfl

theorem Element.setValue_dataOffset (e : Element) (v : Option JSNum) :
    (e.setValue v).dataOffset = e.dataOffset := by cases e; rfl

theorem Element.setValue_dataSize (e : Element) (v : Option JSNum) :
    (e.setValue v).dataSize = e.dataSize := by cases e; rfl

theorem Element.setValue_value (e : Element) (v : Option JSNum) :
    (e.setValue v).value = v := by cases e; rfl

theorem findName_map (es : List Element) (n : String) (f : Element → Element)
    (hf : ∀ e, (f e).name = e.name) :
    findName (es.map f) n = (findName es n).map f := by
  unfold findName
  rw [List.find?_map]
  have hp : ((fun e => e.name == n) ∘ f) = fun e => e.name == n := by
    funext e
    show ((f e).name == n) = (e.name == n)
    rw [hf e]
  rw [hp]

theorem findName_replaceFirst_self (n : String) (e' : Element) (hn : e'.name = n) :
    ∀ (es : List Element) (e : Element), findName es n = some e →
      findName (replaceFirst es n e') n = some e' := by
  intro es
  induction es with
  | nil => intro e h; exact absurd h (by simp [findName])
  | cons x rest ih =>
    intro e h
    unfold findName at h ⊢
    unfold replaceFirst
    by_cases hx : (x.name == n) = true
    · rw [if_pos hx]
      exact List.find?_cons_of_pos _ (by simp [hn])
    · rw [if_neg hx]
      rw [List.find?_cons_of_neg _ (by simpa using hx)] at h ⊢
      exact ih e h

theorem findName_replaceFirst_ne (n m : String) (e' : Element) (hn : e'.name = n)
    (hnm : m ≠ n) :
    ∀ es : List Element, findName (replaceFirst es n e') m = findName es m := by
  intro es
  induction es with
  | nil => rfl
  | cons x rest ih =>
    unfold findName at ih ⊢
    unfold replaceFirst
    by_cases hx : (x.name == n) = true
    · rw [if_pos hx]
      have hxn : x.name = n := eq_of_beq hx
      have he' : ¬((e'.name == m) = true) := by
        rw [hn]
        simp only [beq_iff_eq]
        exact Ne.symm hnm
      have hx' : ¬((x.name == m) = true) := by
        rw [hxn]
        simp only [beq_iff_eq]
        exact Ne.symm hnm
      rw [List.find?_cons_of_neg (p := fun e : Element => e.name == m) rest he',
          List.find?_cons_of_neg (p := fun e : Element => e.name == m) rest hx']
    · rw [if_neg hx]
      by_cases hm : (x.name == m) = true
      · rw [List.find?_cons_of_pos (p := fun e : Element => e.name == m) (replaceFirst rest n e') hm,
            List.find?_cons_of_pos (p := fun e : Element => e.name == m) rest hm]
      · rw [List.find?_cons_of_neg _ (by simpa using hm),
            List.find?_cons_of_neg _ (by simpa using hm)]
        exact ih

theorem locate_of_no_segment {es : List Element}
    (h : findName es "Segment" = none) : locate (stitch es) = none := by
  have hst : stitch es = es := by unfold stitch; rw [h]
  rw [hst]
  unfold locate
  rw [h]

theorem locate_of_no_info {es : List Element} {seg : Element}
    (hch : ∀ e ∈ es, e.children = [])
    (hseg : findName es "Segment" = some seg)
    (hinfo : findName es "Info" = none) : locate (stitch es) = none := by
  have hst : stitch es = es := by unfold stitch; rw [hseg, hinfo]
  rw [hst]
  unfold locate
  rw [hseg]
  dsimp only
  rw [hch seg (findName_mem hseg)]
  rfl

/-- After the stitch, `locate` only looks at the first `Segment`, the
first `Info`, and the child list pushed into that `Info`. -/
theorem locate_stitch_base {es : List Element} (hch : ∀ e ∈ es, e.children = [])
    {seg info : Element} (hseg : findName es "Segment" = some seg)
    (hinfo : findName es "Info" = some info) :
    locate (stitch es) = locate [seg.setChildren [info.setChildren
      ((findName es "Duration").toList ++ (findName es "TimecodeScale").toList)]] := by
  have hsegch : seg.children = [] := hch seg (findName_mem hseg)
  have hinfoch : info.children = [] := hch info (findName_mem hinfo)
  have hstitch : stitch es = replaceFirst (replaceFirst es "Info" (info.setChildren
      ((findName es "Duration").toList ++ (findName es "TimecodeScale").toList)))
      "Segment" (seg.setChildren [info.setChildren
      ((findName es "Duration").toList ++ (findName es "TimecodeScale").toList)]) := by
    unfold stitch
    rw [hseg]
    dsimp only
    rw [hinfo]
    dsimp only
    rw [hinfoch, hsegch]
    simp only [List.nil_append]
  rw [hstitch]
  have hiname : (info.setChildren
      ((findName es "Duration").toList ++ (findName es "TimecodeScale").toList)).name
      = "Info" := by
    rw [Element.setChildren_name]; exact findName_name hinfo
  have hsname : (seg.setChildren [info.setChildren
      ((findName es "Duration").toList ++ (findName es "TimecodeScale").toList)]).name
      = "Segment" := by
    rw [Element.setChildren_name]; exact findName_name hseg
  have hA : findName (replaceFirst es "Info" (info.setChildren
      ((findName es "Duration").toList ++ (findName es "TimecodeScale").toList)))
      "Segment" = some seg := by
    rw [findName_replaceFirst_ne "Info" "Segment" _ hiname (by decide) es]
    exact hseg
  have hB := findName_replaceFirst_self "Segment" _ hsname _ seg hA
  have hC : findName [seg.setChildren [info.setChildren
      ((findName es "Duration").toList ++ (findName es "TimecodeScale").toList)]]
      "Segment" = some (seg.setChildren [info.setChildren
      ((findName es "Duration").toList ++ (findName es "TimecodeScale").toList)]) := by
    unfold findName
    exact List.find?_cons_of_pos _
      (by rw [Element.setChildren_name, findName_name hseg]; decide)
  unfold locate
  rw [hB, hC]

/-- `locate` on the explicit one-`Segment`, one-`Info` tree with child
list `L`. -/
theorem locate_singleton (seg info : Element) (L : List Element)
    (hsn : seg.name = "Segment") (hin : info.name = "Info") :
    locate [seg.setChildren [info.setChildren L]] =
      match findName L "Duration", findName L "TimecodeScale" with
      | some du, some tc => some (du, tc)
      | _, _ => none := by
  unfold locate
  rw [show findName [seg.setChildren [info.setChildren L]] "Segment"
      = some (seg.setChildren [info.setChildren L]) from by
    unfold findName
    exact List.find?_cons_of_pos _ (by rw [Element.setChildren_name, hsn]; decide)]
  dsimp only
  rw [Element.setChildren_children]
  rw [show findName [info.setChildren L] "Info" = some (info.setChildren L) from by
    unfold findName
    exact List.find?_cons_of_pos _ (by rw [Element.setChildren_name, hin]; decide)]
  dsimp only
  rw [Element.setChildren_children]

theorem locate_stitch_of_finds {es : List Element} (hch : ∀ e ∈ es, e.children = [])
    {seg info du tc : Element}
    (hseg : findName es "Segment" = some seg) (hinfo : findName es "Info" = some info)
    (hdu : findName es "Duration" = some du)
    (htc : findName es "TimecodeScale" = some tc) :
    locate (stitch es) = some (du, tc) := by
  have hnd : du.name = "Duration" := findName_name hdu
  have hnt : tc.name = "TimecodeScale" := findName_name htc
  rw [locate_stitch_base hch hseg hinfo, hdu, htc]
  show locate [seg.setChildren [info.setChildren [du, tc]]] = some (du, tc)
  rw [locate_singleton seg info [du, tc] (findName_name hseg) (findName_name hinfo)]
  rw [show findName [du, tc] "Duration" = some du from by
      unfold findName
      exact List.find?_cons_of_pos _ (by rw [hnd]; decide),
    show findName [du, tc] "TimecodeScale" = some tc from by
      unfold findName
      rw [List.find?_cons_of_neg _ (by rw [hnd]; decide)]
      exact List.find?_cons_of_pos _ (by rw [hnt]; decide)]

theorem locate_stitch_no_du {es : List Element} (hch : ∀ e ∈ es, e.children = [])
    {seg info : Element}
    (hseg : findName es "Segment" = some seg) (hinfo : findName es "Info" = some info)
    (hdu : findName es "Duration" = none) : locate (stitch es) = none := by
  rw [locate_stitch_base hch hseg hinfo, hdu]
  cases htc : findName es "TimecodeScale" with
  | none =>
    show locate [seg.setChildren [info.setChildren []]] = none
    rw [locate_singleton seg info [] (findName_name hseg) (findName_name hinfo)]
    rfl
  | some tc =>
    have hnt : tc.name = "TimecodeScale" := findName_name htc
    show locate [seg.setChildren [info.setChildren [tc]]] = none
    rw [locate_singleton seg info [tc] (findName_name hseg) (findName_name hinfo)]
    rw [show findName [tc] "Duration" = none from by
        unfold findName
        rw [List.find?_cons_of_neg _ (by rw [hnt]; decide)]
        rfl,
      show findName [tc] "TimecodeScale" = some tc from by
        unfold findName
        exact List.find?_cons_of_pos _ (by rw [hnt]; decide)]

theorem locate_stitch_no_tc {es : List Element} (hch : ∀ e ∈ es, e.children = [])
    {seg info du : Element}
    (hseg : findName es "Segment" = some seg) (hinfo : findName es "Info" = some info)
    (hdu : findName es "Duration" = some du)
    (htc : findName es "TimecodeScale" = none) : locate (stitch es) = none := by
  have hnd : du.name = "Duration" := findName_name hdu
  rw [locate_stitch_base hch hseg hinfo, hdu, htc]
  show locate [seg.setChildren [info.setChildren [du]]] = none
  rw [locate_singleton seg info [du] (findName_name hseg) (findName_name hinfo)]
  rw [show findName [du] "Duration" = some du from by
      unfold findName
      exact List.find?_cons_of_pos _ (by rw [hnd]; decide),
    show findName [du] "TimecodeScale" = none from by
      unfold findName
      rw [List.find?_cons_of_neg _ (by rw [hnd]; decide)]
      rfl]

/-- Inversion: whenever `locate` succeeds after the stitch, each of the
four names was found in the flat scan list, `Duration` and
`TimecodeScale` yielding exactly the located pair. -/
theorem locate_stitch_inv {es : List Element} (hch : ∀ e ∈ es, e.children = [])
    {p : Element × Element} (h : locate (stitch es) = some p) :
    ∃ seg info, findName es "Segment" = some seg ∧ findName es "Info" = some info ∧
      findName es "Duration" = some p.1 ∧ findName es "TimecodeScale" = some p.2 := by
  cases hseg : findName es "Segment" with
  | none => rw [locate_of_no_segment hseg] at h; exact absurd h (by simp)
  | some seg =>
    cases hinfo : findName es "Info" with
    | none => rw [locate_of_no_info hch hseg hinfo] at h; exact absurd h (by simp)
    | some info =>
      cases hdu : findName es "Duration" with
      | none => rw [locate_stitch_no_du hch hseg hinfo hdu] at h; exact absurd h (by simp)
      | some du =>
        cases htc : findName es "TimecodeScale" with
        | none =>
          rw [locate_stitch_no_tc hch hseg hinfo hdu htc] at h
          exact absurd h (by simp)
        | some tc =>
          rw [locate_stitch_of_finds hch hseg hinfo hdu htc] at h
          obtain rfl : (du, tc) = p := by injection h
          exact ⟨seg, info, rfl, rfl, rfl, rfl⟩

/-- The name and kind dictionaries agree: an element named `Duration`
always has the float kind. -/
theorem getTagType_duration {id : ℕ} (h : getTagName id = "Duration") :
    getTagType id = 'f' := by
  unfold getTagName at h
  unfold getTagType
  split_ifs at h ⊢ <;> first | rfl | exact absurd h (by decide)

theorem exists_four (bs : List ℕ) (h : bs.length = 4) :
    ∃ a b c d, bs = [a, b, c, d] := by
  rcases bs with - | ⟨a, bs⟩
  · simp at h
  rcases bs with - | ⟨b, bs⟩
  · simp at h
  rcases bs with - | ⟨c, bs⟩
  · simp at h
  rcases bs with - | ⟨d, bs⟩
  · simp at h
  rcases bs with - | ⟨e, bs⟩
  · exact ⟨a, b, c, d, rfl⟩
  · exfalso
    simp only [List.length_cons] at h
    omega

theorem getFloat32_overwrite (l : List ℕ) (a w0 w1 w2 w3 : ℕ)
    (h : a + 4 ≤ l.length) :
    getFloat32 (overwrite l a [w0, w1, w2, w3]) a = some (decodeF32 w0 w1 w2 w3) := by
  have h0 : (overwrite l a [w0, w1, w2, w3])[a]? = some w0 := by
    have := overwrite_getElem?_inside [w0, w1, w2, w3] l a 0 (by simp) (by simpa using h)
    simpa using this
  have h1 : (overwrite l a [w0, w1, w2, w3])[a + 1]? = some w1 := by
    have := overwrite_getElem?_inside [w0, w1, w2, w3] l a 1 (by simp) (by simpa using h)
    simpa using this
  have h2 : (overwrite l a [w0, w1, w2, w3])[a + 2]? = some w2 := by
    have := overwrite_getElem?_inside [w0, w1, w2, w3] l a 2 (by simp) (by simpa using h)
    simpa using this
  have h3 : (overwrite l a [w0, w1, w2, w3])[a + 3]? = some w3 := by
    have := overwrite_getElem?_inside [w0, w1, w2, w3] l a 3 (by simp) (by simpa using h)
    simpa using this
  unfold getFloat32
  rw [h0, h1, h2, h3]
  rfl

/-- Claim C6, amended: `process` is idempotent on every buffer whose
located `TimecodeScale` value is `1_000_000` (the nominal WebM scale, for
which the rescale `× scale ÷ 1000 ÷ 1000` is exact in binary64 and the
stored binary32 re-encodes to the same four bytes).  As stated for every
buffer the claim is false — with any other scale each run multiplies the
stored duration by `scale / 10⁶` again (`claim_C6_counterexample`). -/
theorem claim_C6 (l out : List ℕ) (h : process l = some out)
    (hs : ∀ p : Element × Element, patchPlan l = some p →
      p.2.value = some (JSNum.fin false ⟨1000000, 0⟩)) :
    process out = some out := by
  unfold process at h
  split at h
  next => exact absurd h (by simp)
  next elms hdec =>
    split at h
    next hloc =>
      obtain rfl : l = out := by simpa using h
      unfold process
      split
      next hd => rw [hdec] at hd; exact absurd hd (by simp)
      next elms2 hd =>
        rw [hdec] at hd
        obtain rfl : elms = elms2 := by injection hd
        split
        next => rfl
        next p hl => rw [hloc] at hl; exact absurd hl (by simp)
    next D T hloc =>
      unfold writeAt at h
      split at h
      case isFalse => exact absurd h (by simp)
      case isTrue hcond =>
        obtain ⟨hin, hfit⟩ := hcond
        rw [encodeF32_length] at hfit
        set w : List ℕ :=
          encodeF32 (jsDiv (jsDiv (jsMul (valueOf D) (valueOf T)) 1000) 1000) with hwdef
        have hout : overwrite l D.dataOffset w = out := by injection h
        obtain ⟨w0, w1, w2, w3, hw⟩ :=
          exists_four w (by rw [hwdef]; exact encodeF32_length _)
        unfold decode at hdec
        cases hscan : decodeFrom l (l.length + 1) 0 with
        | none => rw [hscan] at hdec; exact absurd hdec (by simp)
        | some es =>
          rw [hscan] at hdec
          obtain rfl : stitch es = elms := by simpa using hdec
          have hdecL : decode l = some (stitch es) := by
            unfold decode
            rw [hscan]
            rfl
          have hch : ∀ e ∈ es, e.children = [] := fun e he =>
            (decodeFrom_mem l _ 0 es hscan e he).2.2.2.2.1
          obtain ⟨seg, info, hseg, hinfo, hdu, htc⟩ := locate_stitch_inv hch hloc
          have hduD : findName es "Duration" = some D := hdu
          have htcT : findName es "TimecodeScale" = some T := htc
          have hDmem : D ∈ es := findName_mem hduD
          have hTmem : T ∈ es := findName_mem htcT
          obtain ⟨-, -, -, -, -, id, hDname, hDtype⟩ :=
            decodeFrom_mem l _ 0 es hscan D hDmem
          have hgt : getTagName id = "Duration" := by
            rw [← hDname]; exact findName_name hduD
          have hDtype' : D.type = 'f' := by rw [hDtype]; exact getTagType_duration hgt
          have hTD : T ≠ D := by
            intro hEq
            have hTn : T.name = "TimecodeScale" := findName_name htcT
            rw [hEq, findName_name hduD] at hTn
            exact absurd hTn (by decide)
          have hpw : es.Pairwise (fun x y => x.dataOffset ≠ y.dataOffset) :=
            (decodeFrom_pairwise l _ 0 es hscan).imp (fun hlt => Nat.ne_of_lt hlt)
          have hTa : T.dataOffset ≠ D.dataOffset :=
            List.Pairwise.forall (fun x y hxy => hxy.symm) hpw hTmem hDmem hTD
          have hlenOut : out.length = l.length := by
            rw [← hout]; exact length_overwrite _ _ _
          have hag : ∀ i, i < D.dataOffset ∨ D.dataOffset + 4 ≤ i → out[i]? = l[i]? := by
            intro i hi
            rw [← hout]
            apply overwrite_getElem?_outside
            rw [hw]
            simpa using hi
          have hb : D.dataOffset + 4 ≤ l.length := by omega
          have hscan' := decodeFrom_upd l out D.dataOffset hlenOut hag hb
            (l.length + 1) 0 es hscan ⟨D, hDmem, hDtype', rfl, hfit⟩
          set F : Element → Element := fun e =>
            if e.dataOffset = D.dataOffset then e.setValue (getFloat32 out D.dataOffset)
            else e with hF
          have hFname : ∀ e : Element, (F e).name = e.name := by
            intro e
            rw [hF]
            dsimp only
            split
            · exact Element.setValue_name _ _
            · rfl
          have hdecOut : decode out = some (stitch (es.map F)) := by
            unfold decode
            rw [hlenOut, hscan']
            rfl
          have hchM : ∀ e ∈ es.map F, e.children = [] := by
            intro e he
            obtain ⟨y, hy, rfl⟩ := List.mem_map.mp he
            rw [hF]
            dsimp only
            split
            · rw [Element.setValue_children]; exact hch y hy
            · exact hch y hy
          have hsegM : findName (es.map F) "Segment" = some (F seg) := by
            rw [findName_map es _ F hFname, hseg]
            rfl
          have hinfoM : findName (es.map F) "Info" = some (F info) := by
            rw [findName_map es _ F hFname, hinfo]
            rfl
          have hduM : findName (es.map F) "Duration" = some (F D) := by
            rw [findName_map es _ F hFname, hduD]
            rfl
          have htcM : findName (es.map F) "TimecodeScale" = some (F T) := by
            rw [findName_map es _ F hFname, htcT]
            rfl
          have hFD : F D = D.setValue (getFloat32 out D.dataOffset) := by
            rw [hF]
            dsimp only
            rw [if_pos rfl]
          have hFT : F T = T := by
            rw [hF]
            dsimp only
            rw [if_neg hTa]
          have hlocOut : locate (stitch (es.map F)) = some (F D, F T) :=
            locate_stitch_of_finds hchM hsegM hinfoM hduM htcM
          have hval : getFloat32 out D.dataOffset = some (decodeF32 w0 w1 w2 w3) := by
            rw [← hout, hw]
            exact getFloat32_overwrite l D.dataOffset w0 w1 w2 w3 hb
          have hvD : valueOf (D.setValue (getFloat32 out D.dataOffset))
              = decodeF32 w0 w1 w2 w3 := by
            unfold valueOf
            rw [Element.setValue_value, hval]
            rfl
          have hp1 : patchPlan l = some (D, T) := by
            unfold patchPlan
            rw [hdecL, Option.some_bind]
            exact hloc
          have hTv : T.value = some (JSNum.fin false ⟨1000000, 0⟩) := hs (D, T) hp1
          have hvT : valueOf T = JSNum.fin false ⟨1000000, 0⟩ := by
            unfold valueOf
            rw [hTv]
            rfl
          have hre : encodeF32 (jsDiv (jsDiv (jsMul (decodeF32 w0 w1 w2 w3)
              (JSNum.fin false ⟨1000000, 0⟩)) 1000) 1000) = [w0, w1, w2, w3] := by
            have hrc := reencode_chain (jsDiv (jsDiv (jsMul (valueOf D) (valueOf T)) 1000) 1000)
            rw [← hwdef] at hrc
            rw [hw] at hrc
            rw [show decodeF32L [w0, w1, w2, w3] = decodeF32 w0 w1 w2 w3 from rfl] at hrc
            exact hrc
          unfold process
          rw [hdecOut]
          dsimp only
          rw [hlocOut]
          dsimp only
          rw [hFD, hFT, Element.setValue_dataOffset, Element.setValue_dataSize,
            hvD, hvT, hre]
          unfold writeAt
          rw [if_pos (And.intro (by rw [hlenOut]; exact hin) (by simpa using hfit))]
          exact congrArg some (overwrite_eq_self [w0, w1, w2, w3] out D.dataOffset
            (fun j hj => by
              rw [← hout, hw]
              exact overwrite_getElem?_inside [w0, w1, w2, w3] l D.dataOffset j hj
                (by simpa using hb)))

/-- Witness for C6: `bufNan` carries `TimecodeScale = 1_000_000`;
`process` canonicalises its NaN `Duration` payload to `7F C0 00 00`, and
a second run leaves those bytes unchanged. -/
theorem claim_C6_witness :
    process bufNan = some outNan ∧ process outNan = some outNan :=
  ⟨by decide, claim_C6 bufNan outNan (by decide)
    (fun p hp => by
      have h1 : (patchPlan bufNan).map (fun q => q.2.value)
          = some (some (JSNum.fin false ⟨1000000, 0⟩)) := rfl
      rw [hp] at h1
      injection h1)⟩

/-- Witness for C10: the one-character title `"/"` sanitises to nothing,
so the fallback `video_capture` is returned: non-empty and short. -/
theorem claim_C10_witness :
    sanitizeFilename [47] 50 = fallbackName ∧ sanitizeFilename [47] 50 ≠ [] ∧
    (sanitizeFilename [47] 50).length ≤ 50 :=
  ⟨(claim_C10 [47]).2.2.2.2 (by decide), (claim_C10 [47]).1, (claim_C10 [47]).2.1⟩

/-- Witness for C3 on a buffer that really gets patched: `bufDouble`
becomes `outDouble`; the lengths agree and all bytes outside the
located payload range `[24, 28)` are untouched. -/
theorem claim_C3_witness :
    process bufDouble = some outDouble ∧
    (outDouble.length = bufDouble.length ∧
     ∀ i : ℕ, (∀ p : Element × Element, patchPlan bufDouble = some p →
         i < p.1.dataOffset ∨ p.1.dataOffset + p.1.dataSize ≤ i) →
       outDouble[i]? = bufDouble[i]?) :=
  ⟨by decide, claim_C3 bufDouble outDouble (by decide)⟩

end WebM
